import Mathlib

/-!
Verification of the Python_Scraper repository core:
the crawl engine (`1_crawl_site_bs4.py`) and the chunking pipeline
(`2b_process_html_bs4.py`), shallowly embedded over `List Char` strings.
-/

set_option maxRecDepth 20000

deriving instance DecidableEq for Except

/-- Strings are modelled as lists of characters. -/
abbrev Str := List Char

/-! ## Python string primitives -/

/-- Whitespace for Python `str.strip()` / `str.isspace()` (ASCII whitespace
plus the common Unicode whitespace characters NEL and NBSP). -/
def pyIsSpace (c : Char) : Bool :=
  c = ' ' ∨ c = '\t' ∨ c = '\n' ∨ c = '\r' ∨ c = '\x0b' ∨ c = '\x0c' ∨
  c = '\x1c' ∨ c = '\x1d' ∨ c = '\x1e' ∨ c = '\x1f' ∨ c = '\x85' ∨ c = '\xa0'

/-- Python `str.strip()`: drop whitespace from both ends. -/
def pyStrip (l : Str) : Str :=
  ((l.dropWhile pyIsSpace).reverse.dropWhile pyIsSpace).reverse

/-- Python `str.strip(ch)` for a single character: drop `ch` from both ends. -/
def pyStripChar (ch : Char) (l : Str) : Str :=
  ((l.dropWhile (· = ch)).reverse.dropWhile (· = ch)).reverse

/-- Clamp one Python slice index (negative indices count from the end). -/
def pySliceIdx (len : Nat) (i : Int) : Nat :=
  if i < 0 then (max ((len : Int) + i) 0).toNat else min i.toNat len

/-- Python slice `l[a:b]` (step 1). -/
def pySlice (l : Str) (a b : Int) : Str :=
  (l.take (pySliceIdx l.length b)).drop (pySliceIdx l.length a)

/-- Python `sep.split` on one character: `"a/b".split('/') = ["a","b"]`,
`"".split('/') = [""]`. -/
def splitOnChar (sep : Char) : Str → List Str
  | [] => [[]]
  | c :: cs =>
    let r := splitOnChar sep cs
    if c = sep then [] :: r
    else
      match r with
      | h :: t => (c :: h) :: t
      | [] => [[c]]

/-- Python `sep.join` for a one-character separator. -/
def joinChar (sep : Char) : List Str → Str
  | [] => []
  | [x] => x
  | x :: y :: t => x ++ sep :: joinChar sep (y :: t)

/-- Join a list of lines with a newline, Python `'\n'.join(lines)`. -/
def joinLines : List Str → Str := joinChar '\n'

/-! ## The chunking algorithm (`chunk_text` in `2b_process_html_bs4.py`)

The Python loop is embedded with an explicit fuel argument (the loop makes
strictly increasing progress through the text for the default parameters, so
`text.length + 1` units of fuel always suffice there), and with the possible
`IndexError` of `text[i + 1]` made explicit in an `Except` result. -/

/-- A sentence-terminal character: `text[i] in '.!?'`. -/
def isSentenceEnd (c : Char) : Bool := c = '.' ∨ c = '!' ∨ c = '?'

/-- The backward scan
`for i in range(min(end + 100, text_len) - 1, end - 100, -1)` of `chunk_text`:
starting at `i` and taking `steps` iterations of `i, i - 1, ...`, return the
first `i` with `i > 0` and `text[i] in '.!?' and text[i + 1].isspace()`.
Reading `text[i + 1]` out of range is Python's `IndexError`. -/
def findBoundary (text : Str) : Nat → Int → Except String (Option Int)
  | 0, _ => .ok none
  | steps + 1, i =>
    if i > 0 then
      match text[i.toNat]? with
      | none => .error "IndexError"
      | some ci =>
        if isSentenceEnd ci then
          match text[(i + 1).toNat]? with
          | none => .error "IndexError"
          | some cj =>
            if pyIsSpace cj then .ok (some i)
            else findBoundary text steps (i - 1)
        else findBoundary text steps (i - 1)
    else findBoundary text steps (i - 1)

/-- The `if end < text_len:` sentence-boundary search of one loop pass of
`chunk_text`, for the tentative cut `endT = start + chunk_size`. -/
def chunkScan (text : Str) (endT : Nat) : Except String (Option Int) :=
  if endT < text.length then
    findBoundary text
      (max ((((min (endT + 100) text.length : Nat) : Int) - 1) - ((endT : Int) - 100)) 0).toNat
      (((min (endT + 100) text.length : Nat) : Int) - 1)
  else .ok none

/-- The final cut position of one loop pass: `end = i + 1` when the scan broke
at `i`, else the tentative `end`. -/
def endFOf (found : Option Int) (endT : Nat) : Nat :=
  match found with
  | some i => (i + 1).toNat
  | none => endT

/-- One pass of the `while start < text_len` loop of `chunk_text`, with fuel. -/
def chunkLoop (text : Str) (chunkSize overlap : Nat) :
    Nat → Nat → List Str → Except String (List Str)
  | 0, _, _ => .error "fuel"
  | fuel + 1, start, acc =>
    if start < text.length then
      match chunkScan text (start + chunkSize) with
      | .error e => .error e
      | .ok found =>
        let endF : Nat := endFOf found (start + chunkSize)
        let sliceStart : Int := if start > 0 then (start : Int) - (overlap : Int) else 0
        let chunk := pyStrip (pySlice text sliceStart (endF : Int))
        chunkLoop text chunkSize overlap fuel endF
          (if chunk ≠ [] then acc ++ [chunk] else acc)
    else .ok acc

/-- Unfolding one loop pass when the scan result is known. -/
lemma chunkLoop_step (text : Str) (cs ov fuel start : Nat) (acc : List Str)
    (h : start < text.length) (found : Option Int)
    (hscan : chunkScan text (start + cs) = .ok found) :
    chunkLoop text cs ov (fuel + 1) start acc =
      chunkLoop text cs ov fuel (endFOf found (start + cs))
        (if pyStrip (pySlice text (if start > 0 then (start : Int) - (ov : Int) else 0)
              (endFOf found (start + cs) : Int)) ≠ [] then
          acc ++ [pyStrip (pySlice text (if start > 0 then (start : Int) - (ov : Int) else 0)
            (endFOf found (start + cs) : Int))]
        else acc) := by
  rw [chunkLoop, if_pos h, hscan]

/-- Unfolding one loop pass when the scan raises. -/
lemma chunkLoop_step_error (text : Str) (cs ov fuel start : Nat) (acc : List Str)
    (h : start < text.length) (e : String)
    (hscan : chunkScan text (start + cs) = .error e) :
    chunkLoop text cs ov (fuel + 1) start acc = .error e := by
  rw [chunkLoop, if_pos h, hscan]

/-- The loop exits with the accumulated chunks once `start >= text_len`. -/
lemma chunkLoop_exit (text : Str) (cs ov fuel start : Nat) (acc : List Str)
    (h : ¬ start < text.length) :
    chunkLoop text cs ov (fuel + 1) start acc = .ok acc := by
  rw [chunkLoop, if_neg h]

/-- `chunk_text(text, chunk_size, overlap)` from `2b_process_html_bs4.py`. -/
def chunkText (text : Str) (chunkSize : Nat := 1000) (overlap : Nat := 200) :
    Except String (List Str) :=
  chunkLoop text chunkSize overlap (text.length + 1) 0 []

example : chunkText ("Hello world.".toList) = .ok ["Hello world.".toList] := by
  decide

/-! ## Lemmas about the chunking model -/

lemma pySlice_of_nonneg (text : Str) (a b : Int) (ha : 0 ≤ a) (hb : 0 ≤ b) :
    pySlice text a b =
      (text.take (min b.toNat text.length)).drop (min a.toNat text.length) := by
  unfold pySlice pySliceIdx
  rw [if_neg (by omega), if_neg (by omega)]

/-- If every index in the scanned window is inside the text and no
sentence-terminal character there is followed by whitespace, the backward
scan finds nothing and raises nothing. -/
lemma findBoundary_none (text : Str) (steps : Nat) (i : Int)
    (h : ∀ j : Int, i - steps < j → j ≤ i → 0 < j →
      j.toNat < text.length ∧
        ∀ cj, text[j.toNat]? = some cj → isSentenceEnd cj →
          ∃ ck, text[j.toNat + 1]? = some ck ∧ pyIsSpace ck = false) :
    findBoundary text steps i = .ok none := by
  induction steps generalizing i with
  | zero => rfl
  | succ n ih =>
    rw [findBoundary]
    have hrec : findBoundary text n (i - 1) = .ok none := by
      apply ih
      intro j h1 h2 h3
      exact h j (by push_cast at h1 ⊢; omega) (by omega) h3
    by_cases hi : i > 0
    · obtain ⟨hlt, hcond⟩ := h i (by push_cast; omega) le_rfl hi
      obtain ⟨ci, hci⟩ : ∃ ci, text[i.toNat]? = some ci := by
        cases hg : text[i.toNat]? with
        | none => rw [List.getElem?_eq_none_iff] at hg; omega
        | some ci => exact ⟨ci, rfl⟩
      by_cases hs : isSentenceEnd ci
      · obtain ⟨ck, hck, hns⟩ := hcond ci hci hs
        have h1 : (i + 1).toNat = i.toNat + 1 := by omega
        rw [if_pos hi, hci]
        simp [hs, h1, hck, hns, hrec]
      · rw [if_pos hi, hci]
        simp [hs, hrec]
    · rw [if_neg hi]
      exact hrec

lemma pySlice_take (text : Str) (b : Nat) (hb : b ≤ text.length) :
    pySlice text 0 b = text.take b := by
  rw [pySlice_of_nonneg text 0 b (by omega) (by omega)]
  simp [min_eq_left hb]

lemma pySlice_drop (text : Str) (a b : Nat) (ha : a ≤ text.length)
    (hb : text.length ≤ b) : pySlice text a b = text.drop a := by
  rw [pySlice_of_nonneg text a b (by omega) (by omega)]
  rw [Int.toNat_natCast, Int.toNat_natCast, min_eq_right hb, min_eq_left ha,
    List.take_length]

/-- The scan over the window `(900, 1099]` of a 1500-character text with no
sentence-terminal character followed by whitespace finds nothing. -/
lemma chunkScan_1500_1000 (text : Str)
    (hlen : text.length = 1500)
    (hNB : ∀ (i : Nat) ci cj, text[i]? = some ci → text[i + 1]? = some cj →
      isSentenceEnd ci → pyIsSpace cj = false) :
    chunkScan text 1000 = .ok none := by
  unfold chunkScan
  rw [hlen, if_pos (by omega)]
  apply findBoundary_none
  intro j h1 h2 h3
  have hj : j ≤ 1099 := by omega
  refine ⟨by omega, ?_⟩
  intro cj hcj hsent
  obtain ⟨ck, hck⟩ : ∃ ck, text[j.toNat + 1]? = some ck := by
    cases hg : text[j.toNat + 1]? with
    | none => rw [List.getElem?_eq_none_iff] at hg; omega
    | some ck => exact ⟨ck, rfl⟩
  exact ⟨ck, hck, hNB j.toNat cj ck hcj hck hsent⟩

/-- Trace of `chunk_text` on a 1500-character text with no sentence-terminal
character followed by whitespace: the two raw windows are `[0, 1000)` and
`[800, 1500)`, each kept only if non-empty after trimming. -/
lemma chunkText_1500 (text : Str)
    (hlen : text.length = 1500)
    (hNB : ∀ (i : Nat) ci cj, text[i]? = some ci → text[i + 1]? = some cj →
      isSentenceEnd ci → pyIsSpace cj = false) :
    chunkText text =
      .ok ((if pyStrip (text.take 1000) ≠ [] then [pyStrip (text.take 1000)] else []) ++
        (if pyStrip (text.drop 800) ≠ [] then [pyStrip (text.drop 800)] else [])) := by
  have hscan1 : chunkScan text (0 + 1000) = .ok none := chunkScan_1500_1000 text hlen hNB
  have hscan2 : chunkScan text (1000 + 1000) = .ok none := by
    unfold chunkScan
    rw [hlen, if_neg (by omega)]
  unfold chunkText
  rw [hlen]
  rw [show (1500 : Nat) + 1 = 1500 + 1 from rfl,
    chunkLoop_step text 1000 200 1500 0 [] (by omega) none hscan1]
  rw [show endFOf none (0 + 1000) = 1000 from rfl]
  rw [if_neg (by omega : ¬ ((0 : Nat) > 0)), pySlice_take text 1000 (by omega)]
  rw [show (1500 : Nat) = 1499 + 1 from rfl,
    chunkLoop_step text 1000 200 1499 1000 _ (by omega) none hscan2]
  rw [show endFOf none (1000 + 1000) = 2000 from rfl]
  rw [if_pos (by omega : (1000 : Nat) > 0)]
  rw [show ((1000 : Nat) : Int) - ((200 : Nat) : Int) = ((800 : Nat) : Int) by norm_num]
  rw [pySlice_drop text 800 2000 (by omega) (by omega)]
  rw [show (1499 : Nat) = 1498 + 1 from rfl,
    chunkLoop_exit text 1000 200 1498 2000 _ (by omega)]
  by_cases h1 : pyStrip (text.take 1000) = [] <;>
    by_cases h2 : pyStrip (text.drop 800) = [] <;>
      simp [h1, h2]

/-- C1: the claim asserts `chunk_text` is total for `size=1000, overlap=200`
and that the backward search only reads positions inside the text. The code
violates this: on a 1001-character text ending in a sentence-terminal
character, the scan evaluates `text[i + 1]` at `i + 1 = len(text)`, raising
`IndexError`. This theorem evaluates the model at that failing input. -/
theorem chunkText_boundary_scan_raises :
    chunkText (List.replicate 1000 'a' ++ ['.']) = .error "IndexError" := by
  decide

/-- In a constant text no sentence-terminal character is ever followed by
whitespace, provided the repeated character is not sentence-terminal. -/
lemma replicate_no_boundary (n : Nat) (c : Char) (hc : isSentenceEnd c = false) :
    ∀ (i : Nat) ci cj, (List.replicate n c)[i]? = some ci →
      (List.replicate n c)[i + 1]? = some cj →
      isSentenceEnd ci → pyIsSpace cj = false := by
  intro i ci cj hci hcj hsent
  rw [List.getElem?_replicate] at hci
  by_cases h : i < n
  · rw [if_pos h] at hci
    cases hci
    exact absurd hsent (by simp [hc])
  · rw [if_neg h] at hci
    cases hci

/-- C3 counterexample: the all-whitespace text of length 1500 contains no
sentence-terminal character followed by whitespace, yet `chunk_text` returns
zero chunks (trimmed-empty windows are dropped), not the two claimed chunks. -/
theorem chunkText_len1500_all_space_cex :
    (List.replicate 1500 ' ').length = 1500 ∧
    (∀ (i : Nat) ci cj, (List.replicate 1500 ' ')[i]? = some ci →
      (List.replicate 1500 ' ')[i + 1]? = some cj →
      isSentenceEnd ci → pyIsSpace cj = false) ∧
    chunkText (List.replicate 1500 ' ') ≠
      .ok [pyStrip ((List.replicate 1500 ' ').take 1000),
        pyStrip ((List.replicate 1500 ' ').drop 800)] := by
  refine ⟨by simp, replicate_no_boundary 1500 ' ' (by decide), ?_⟩
  have hs1 : pyStrip (List.replicate 1000 ' ') = [] := by decide
  have hs2 : pyStrip (List.replicate 700 ' ') = [] := by decide
  rw [chunkText_1500 _ (by simp) (replicate_no_boundary 1500 ' ' (by decide))]
  rw [List.take_replicate, List.drop_replicate]
  norm_num [hs1, hs2]
  simp

/-- C3 (amended): for every text of length exactly 1500 with no
sentence-terminal character followed by whitespace, and whose windows
`[0, 1000)` and `[800, 1500)` are non-empty after trimming,
`chunk_text(text, 1000, 200)` produces exactly 2 chunks: the trimmed
substring of `[0, 1000)` and the trimmed substring of `[800, 1500)`. -/
theorem chunkText_len1500_two_chunks (text : Str)
    (hlen : text.length = 1500)
    (hNB : ∀ (i : Nat) ci cj, text[i]? = some ci → text[i + 1]? = some cj →
      isSentenceEnd ci → pyIsSpace cj = false)
    (h1 : pyStrip (text.take 1000) ≠ [])
    (h2 : pyStrip (text.drop 800) ≠ []) :
    chunkText text = .ok [pyStrip (text.take 1000), pyStrip (text.drop 800)] := by
  rw [chunkText_1500 text hlen hNB, if_pos h1, if_pos h2]
  rfl

/-- Witness for C3 at the concrete text of 1500 letters `a`. -/
theorem chunkText_len1500_two_chunks_witness :
    chunkText (List.replicate 1500 'a') =
      .ok [pyStrip ((List.replicate 1500 'a').take 1000),
        pyStrip ((List.replicate 1500 'a').drop 800)] :=
  chunkText_len1500_two_chunks (List.replicate 1500 'a') (by simp)
    (replicate_no_boundary 1500 'a' (by decide))
    (by rw [List.take_replicate]; decide)
    (by rw [List.drop_replicate]; decide)

/-! ## C2: the chunking round-trip -/

/-- Reconstruction prescribed by the claim: concatenate the chunks after
dropping the last `ov` characters from each non-first chunk. -/
def reconDropLast (ov : Nat) : List Str → Str
  | [] => []
  | c :: rest => c ++ (rest.map (fun k => k.take (k.length - ov))).flatten

/-- Reconstruction that actually inverts the overlap: concatenate the chunks
after dropping the first `ov` characters from each non-first chunk. -/
def reconDropFirst (ov : Nat) : List Str → Str
  | [] => []
  | c :: rest => c ++ (rest.map (fun k => k.drop ov)).flatten

lemma dropWhile_eq_self_of {p : Char → Bool} {l : Str}
    (h : ∀ c ∈ l, p c = false) : l.dropWhile p = l := by
  cases l with
  | nil => rfl
  | cons c cs =>
    rw [List.dropWhile_cons, h c (by simp)]
    simp

/-- Trimming is the identity on whitespace-free strings. -/
lemma pyStrip_no_space (l : Str) (h : ∀ c ∈ l, pyIsSpace c = false) :
    pyStrip l = l := by
  unfold pyStrip
  rw [dropWhile_eq_self_of h, dropWhile_eq_self_of (by simpa using h),
    List.reverse_reverse]

/-- A successful break of the backward scan exhibits a whitespace character
of the text. -/
lemma findBoundary_some_space (text : Str) (steps : Nat) (i0 i : Int)
    (h : findBoundary text steps i0 = .ok (some i)) :
    ∃ c ∈ text, pyIsSpace c = true := by
  induction steps generalizing i0 with
  | zero => simp [findBoundary] at h
  | succ n ih =>
    rw [findBoundary] at h
    by_cases hi : i0 > 0
    · rw [if_pos hi] at h
      cases hg : text[i0.toNat]? with
      | none => simp [hg] at h
      | some ci =>
        simp only [hg] at h
        by_cases hs : isSentenceEnd ci
        · rw [if_pos hs] at h
          cases hg2 : text[(i0 + 1).toNat]? with
          | none => simp [hg2] at h
          | some cj =>
            simp only [hg2] at h
            by_cases hsp : pyIsSpace cj
            · exact ⟨cj, List.getElem?_mem hg2, hsp⟩
            · rw [if_neg hsp] at h
              exact ih _ h
        · rw [if_neg hs] at h
          exact ih _ h
    · rw [if_neg hi] at h
      exact ih _ h

lemma chunkScan_some_space (text : Str) (endT : Nat) (i : Int)
    (h : chunkScan text endT = .ok (some i)) :
    ∃ c ∈ text, pyIsSpace c = true := by
  unfold chunkScan at h
  by_cases hc : endT < text.length
  · rw [if_pos hc] at h
    exact findBoundary_some_space text _ _ i h
  · rw [if_neg hc] at h
    simp at h

lemma drop_min_length {α : Type} (l : List α) (n : Nat) :
    l.drop (min n l.length) = l.drop n := by
  rcases le_total n l.length with h | h
  · rw [min_eq_left h]
  · rw [min_eq_right h, List.drop_length, List.drop_eq_nil_of_le h]

lemma take_drop_chain {α : Type} (l : List α) (s m : Nat) (hsm : s ≤ m) :
    (l.take m).drop s ++ l.drop m = l.drop s := by
  rw [List.drop_take]
  have h2 : l.drop m = (l.drop s).drop (m - s) := by
    rw [List.drop_drop]
    congr 1
    omega
  rw [h2, List.take_append_drop]

/-- Invariant of the chunking loop on whitespace-free text: from any cursor
`s ≥ 200`, a successful run appends chunks whose concatenation, after
dropping the leading 200-character overlap of each, is exactly `text[s:]`. -/
lemma chunkLoop_ws_inv (text : Str) (hws : ∀ c ∈ text, pyIsSpace c = false) :
    ∀ (fuel s : Nat) (acc out : List Str),
      200 ≤ s →
      chunkLoop text 1000 200 fuel s acc = .ok out →
      ∃ tail, out = acc ++ tail ∧
        (tail.map (fun k => k.drop 200)).flatten = text.drop s := by
  intro fuel
  induction fuel with
  | zero =>
    intro s acc out hs hok
    simp [chunkLoop] at hok
  | succ fuel ih =>
    intro s acc out hs hok
    by_cases hlt : s < text.length
    · cases hsc : chunkScan text (s + 1000) with
      | error e =>
        rw [chunkLoop_step_error text 1000 200 fuel s acc hlt e hsc] at hok
        simp at hok
      | ok found =>
        cases found with
        | some i =>
          obtain ⟨c, hc, hsp⟩ := chunkScan_some_space text (s + 1000) i hsc
          rw [hws c hc] at hsp
          cases hsp
        | none =>
          rw [chunkLoop_step text 1000 200 fuel s acc hlt none hsc] at hok
          simp only [endFOf] at hok
          rw [if_pos (by omega : s > 0)] at hok
          have hslice : pySlice text ((s : Int) - ((200 : Nat) : Int))
              (((s + 1000 : Nat) : Int)) =
              (text.take (min (s + 1000) text.length)).drop (s - 200) := by
            rw [pySlice_of_nonneg _ _ _ (by omega) (by omega)]
            rw [Int.toNat_natCast]
            rw [show ((s : Int) - ((200 : Nat) : Int)).toNat = s - 200 by omega]
            rw [min_eq_left (show s - 200 ≤ text.length by omega)]
          rw [hslice] at hok
          have hmem : ∀ c ∈ (text.take (min (s + 1000) text.length)).drop (s - 200),
              pyIsSpace c = false :=
            fun c hc => hws c (List.mem_of_mem_take (List.mem_of_mem_drop hc))
          rw [pyStrip_no_space _ hmem] at hok
          have hne : (text.take (min (s + 1000) text.length)).drop (s - 200) ≠ [] := by
            intro hnil
            rw [List.drop_eq_nil_iff, List.length_take] at hnil
            have h2 : s ≤ min (min (s + 1000) text.length) text.length :=
              le_min (le_min (by omega) (by omega)) (by omega)
            omega
          rw [if_pos hne] at hok
          obtain ⟨tail, htl, hflat⟩ := ih (s + 1000) (acc ++
            [(text.take (min (s + 1000) text.length)).drop (s - 200)]) out
            (by omega) hok
          refine ⟨(text.take (min (s + 1000) text.length)).drop (s - 200) :: tail,
            by simpa [List.append_assoc] using htl, ?_⟩
          simp only [List.map_cons, List.flatten_cons, hflat]
          rw [List.drop_drop]
          rw [show s - 200 + 200 = s by omega]
          rw [show text.drop (s + 1000) = text.drop (min (s + 1000) text.length) by
            rw [drop_min_length]]
          exact take_drop_chain text s (min (s + 1000) text.length)
            (le_min (by omega) (by omega))
    · rw [chunkLoop_exit text 1000 200 fuel s acc hlt] at hok
      simp only [Except.ok.injEq] at hok
      subst hok
      refine ⟨[], by simp, ?_⟩
      have hd : text.drop s = [] := List.drop_eq_nil_of_le (by omega)
      simp [hd]

/-- C2 (amended): on whitespace-free text, a successful run of
`chunk_text(text, 1000, 200)` yields chunks whose concatenation, after
dropping the first `overlap = 200` characters from each non-first chunk,
reconstructs `text` exactly; in particular the non-whitespace characters
of the reconstruction are exactly those of `text`, in order. -/
theorem chunkText_roundtrip_drop_first (text : Str) (chunks : List Str)
    (hws : ∀ c ∈ text, pyIsSpace c = false)
    (hok : chunkText text = .ok chunks) :
    reconDropFirst 200 chunks = text ∧
      (reconDropFirst 200 chunks).filter (fun c => !(pyIsSpace c)) =
        text.filter (fun c => !(pyIsSpace c)) := by
  have hmain : reconDropFirst 200 chunks = text := by
    unfold chunkText at hok
    by_cases hnil : text.length = 0
    · rw [hnil] at hok
      rw [chunkLoop_exit text 1000 200 0 0 [] (by omega)] at hok
      simp only [Except.ok.injEq] at hok
      subst hok
      rw [List.length_eq_zero] at hnil
      simp [reconDropFirst, hnil]
    · cases hsc : chunkScan text (0 + 1000) with
      | error e =>
        rw [chunkLoop_step_error text 1000 200 text.length 0 [] (by omega) e hsc] at hok
        simp at hok
      | ok found =>
        cases found with
        | some i =>
          obtain ⟨c, hc, hsp⟩ := chunkScan_some_space text (0 + 1000) i hsc
          rw [hws c hc] at hsp
          cases hsp
        | none =>
          rw [chunkLoop_step text 1000 200 text.length 0 [] (by omega) none hsc] at hok
          simp only [endFOf] at hok
          rw [if_neg (by omega : ¬ ((0 : Nat) > 0))] at hok
          have hslice : pySlice text 0 (((0 + 1000 : Nat) : Int)) =
              text.take (min 1000 text.length) := by
            rw [pySlice_of_nonneg _ _ _ (by omega) (by omega)]
            simp
          rw [hslice] at hok
          have hmem : ∀ c ∈ text.take (min 1000 text.length), pyIsSpace c = false :=
            fun c hc => hws c (List.mem_of_mem_take hc)
          rw [pyStrip_no_space _ hmem] at hok
          have hne : text.take (min 1000 text.length) ≠ [] := by
            intro hnil2
            rw [List.take_eq_nil_iff] at hnil2
            rcases hnil2 with h | h
            · have h0 : (0 : Nat) < min 1000 text.length := lt_min (by omega) (by omega)
              omega
            · exact hnil (by rw [h]; rfl)
          rw [if_pos hne] at hok
          obtain ⟨tail, htl, hflat⟩ := chunkLoop_ws_inv text hws text.length
            (0 + 1000) [text.take (min 1000 text.length)] chunks (by omega) hok
          subst htl
          simp only [List.singleton_append, reconDropFirst]
          rw [hflat]
          rw [show text.drop (0 + 1000) = text.drop (min 1000 text.length) by
            rw [drop_min_length]]
          exact List.take_append_drop _ _
  exact ⟨hmain, by rw [hmain]⟩

/-- Witness for C2 at the concrete text `"ab"`. -/
theorem chunkText_roundtrip_drop_first_witness :
    reconDropFirst 200 [['a', 'b']] = ['a', 'b'] ∧
      (reconDropFirst 200 [['a', 'b']]).filter (fun c => !(pyIsSpace c)) =
        (['a', 'b'] : Str).filter (fun c => !(pyIsSpace c)) :=
  chunkText_roundtrip_drop_first ['a', 'b'] [['a', 'b']] (by decide) (by decide)

/-- Concrete round-trip counterexample text: 1500 whitespace-free,
sentence-terminal-free characters with markers at positions 800 and 1000. -/
def roundTripCexText : Str :=
  List.replicate 800 'a' ++
    'b' :: (List.replicate 199 'a' ++ 'c' :: List.replicate 499 'a')

lemma roundTripCexText_length : roundTripCexText.length = 1500 := by
  simp [roundTripCexText]

lemma roundTripCexText_mem : ∀ c ∈ roundTripCexText, c = 'a' ∨ c = 'b' ∨ c = 'c' := by
  intro c hc
  simp only [roundTripCexText, List.mem_append, List.mem_cons,
    List.mem_replicate] at hc
  tauto

/-- C2 counterexample: on a concrete 1500-character text, concatenating the
chunks of `chunk_text(text, 1000, 200)` after dropping the last 200 characters
from each non-first chunk does not reproduce the text's non-whitespace
characters (the overlap sits at the front of a non-first chunk, not its end). -/
theorem chunkText_roundtrip_drop_last_cex :
    Except.map (fun cs => (reconDropLast 200 cs).filter (fun c => !(pyIsSpace c)))
        (chunkText roundTripCexText) ≠
      Except.ok (roundTripCexText.filter (fun c => !(pyIsSpace c))) := by
  have hlen := roundTripCexText_length
  have hNB : ∀ (i : Nat) ci cj, roundTripCexText[i]? = some ci →
      roundTripCexText[i + 1]? = some cj → isSentenceEnd ci → pyIsSpace cj = false := by
    intro i ci cj hci hcj hsent
    rcases roundTripCexText_mem ci (List.getElem?_mem hci) with rfl | rfl | rfl <;>
      exact absurd hsent (by decide)
  have hchunks := chunkText_1500 roundTripCexText hlen hNB
  have hs1 : pyStrip (roundTripCexText.take 1000) = roundTripCexText.take 1000 :=
    pyStrip_no_space _ (fun c hc => by
      rcases roundTripCexText_mem c (List.mem_of_mem_take hc) with rfl | rfl | rfl <;>
        decide)
  have hs2 : pyStrip (roundTripCexText.drop 800) = roundTripCexText.drop 800 :=
    pyStrip_no_space _ (fun c hc => by
      rcases roundTripCexText_mem c (List.mem_of_mem_drop hc) with rfl | rfl | rfl <;>
        decide)
  rw [hs1, hs2] at hchunks
  have hne1 : roundTripCexText.take 1000 ≠ [] := by
    intro h
    rcases List.take_eq_nil_iff.mp h with h2 | h2
    · exact absurd h2 (by norm_num)
    · rw [h2] at hlen
      simp at hlen
  have hne2 : roundTripCexText.drop 800 ≠ [] := by
    intro h
    rw [List.drop_eq_nil_iff] at h
    omega
  rw [if_pos hne1, if_pos hne2] at hchunks
  rw [hchunks]
  simp only [Except.map, ne_eq, Except.ok.injEq, List.singleton_append]
  have hrecon : reconDropLast 200
      [roundTripCexText.take 1000, roundTripCexText.drop 800] =
      roundTripCexText.take 1000 ++ (roundTripCexText.drop 800).take 500 := by
    simp only [reconDropLast, List.map_cons, List.map_nil, List.flatten_cons,
      List.flatten_nil, List.append_nil]
    rw [show (roundTripCexText.drop 800).length - 200 = 500 by
      rw [List.length_drop, hlen]]
  rw [hrecon]
  have hmemR : ∀ c ∈ roundTripCexText.take 1000 ++ (roundTripCexText.drop 800).take 500,
      c = 'a' ∨ c = 'b' ∨ c = 'c' := by
    intro c hc
    rcases List.mem_append.mp hc with hc2 | hc2
    · exact roundTripCexText_mem c (List.mem_of_mem_take hc2)
    · exact roundTripCexText_mem c (List.mem_of_mem_drop (List.mem_of_mem_take hc2))
  rw [List.filter_eq_self.mpr (fun a ha => by
    rcases hmemR a ha with rfl | rfl | rfl <;> decide)]
  rw [List.filter_eq_self.mpr (fun a ha => by
    rcases roundTripCexText_mem a ha with rfl | rfl | rfl <;> decide)]
  intro heq
  have h1000 := congrArg (fun l => l[1000]?) heq
  simp only at h1000
  rw [List.getElem?_append_right (by rw [List.length_take, hlen]; norm_num)] at h1000
  rw [show 1000 - (roundTripCexText.take 1000).length = 0 by
    rw [List.length_take, hlen]; norm_num] at h1000
  rw [List.getElem?_take_of_lt (by norm_num), List.getElem?_drop] at h1000
  rw [show roundTripCexText[800 + 0]? = some 'b' by decide] at h1000
  rw [show roundTripCexText[1000]? = some 'c' by decide] at h1000
  simp at h1000

/-! ## URL parsing: model of `urllib.parse.urlparse`

`urlparse` is standard-library code external to the repository; it is
modelled here after CPython's `urlsplit`/`_splitparams`: removal of tab,
carriage-return and newline characters, scheme extraction before the first
`:` when the candidate is a valid scheme name (lowercased), a netloc after
`//` running to the first of `/?#`, fragment split at the first `#`, query
split at the first `?`, and params split at the first `;` of the last path
segment. -/

structure ParsedUrl where
  scheme : Str
  netloc : Str
  path : Str
  params : Str
  query : Str
  fragment : Str
deriving DecidableEq

def isAsciiAlpha (c : Char) : Bool :=
  ('a' ≤ c ∧ c ≤ 'z') ∨ ('A' ≤ c ∧ c ≤ 'Z')

def isAsciiDigit (c : Char) : Bool := '0' ≤ c ∧ c ≤ '9'

def isSchemeChar (c : Char) : Bool :=
  isAsciiAlpha c ∨ isAsciiDigit c ∨ c = '+' ∨ c = '-' ∨ c = '.'

def asciiLower (c : Char) : Char :=
  if 'A' ≤ c ∧ c ≤ 'Z' then Char.ofNat (c.toNat + 32) else c

/-- Split at the first occurrence of `ch`: the part before it, and the part
after it when present. -/
def breakAtChar (ch : Char) : Str → Str × Option Str
  | [] => ([], none)
  | c :: cs =>
    if c = ch then ([], some cs)
    else
      let r := breakAtChar ch cs
      (c :: r.1, r.2)

/-- Python `url.split(ch, 1)` with a missing separator giving `''`. -/
def splitAtChar (ch : Char) (l : Str) : Str × Str :=
  match breakAtChar ch l with
  | (pre, some rest) => (pre, rest)
  | (pre, none) => (pre, [])

def removeUnsafeChars (l : Str) : Str :=
  l.filter (fun c => ¬ (c = '\t' ∨ c = '\r' ∨ c = '\n'))

def splitScheme (l : Str) : Str × Str :=
  match breakAtChar ':' l with
  | (pre, some rest) =>
    match pre with
    | [] => ([], l)
    | p0 :: ps =>
      if isAsciiAlpha p0 ∧ (p0 :: ps).all isSchemeChar then
        ((p0 :: ps).map asciiLower, rest)
      else ([], l)
  | (_, none) => ([], l)

def isNetlocEnd (c : Char) : Bool := c = '/' ∨ c = '?' ∨ c = '#'

def splitNetloc (l : Str) : Str × Str :=
  match l with
  | '/' :: '/' :: rest =>
    (rest.takeWhile (fun c => ¬ isNetlocEnd c), rest.dropWhile (fun c => ¬ isNetlocEnd c))
  | _ => ([], l)

/-- CPython `_splitparams`: split params at the first `;` of the last `/`
segment. -/
def splitParams (p : Str) : Str × Str :=
  if p.contains '/' then
    match breakAtChar ';' (p.reverse.takeWhile (fun c => ¬ (c = '/'))).reverse with
    | (a, some b) => ((p.reverse.dropWhile (fun c => ¬ (c = '/'))).reverse ++ a, b)
    | (_, none) => (p, [])
  else
    match breakAtChar ';' p with
    | (a, some b) => (a, b)
    | (_, none) => (p, [])

def pyUrlparse (url : Str) : ParsedUrl :=
  let u := removeUnsafeChars url
  let sch := splitScheme u
  let nl := splitNetloc sch.2
  let fr := splitAtChar '#' nl.2
  let qu := splitAtChar '?' fr.1
  let pp := splitParams qu.1
  ⟨sch.1, nl.1, pp.1, pp.2, qu.2, fr.2⟩

/-! ## `WebsiteCrawler.clean_url` and the filename derivation
(`1_crawl_site_bs4.py`) -/

/-- Python substring membership `pat in s`. -/
def containsSeq (pat : Str) : Str → Bool
  | [] => pat.isEmpty
  | c :: cs => pat.isPrefixOf (c :: cs) || containsSeq pat cs

/-- The first normalisation step of `clean_url`:
`url.strip().replace('\xa0', '')`. -/
def normUrl (url0 : Str) : Str :=
  (pyStrip url0).filter (fun c => ¬ (c = '\xa0'))

/-- `clean_url` of `WebsiteCrawler`, parametrised by the crawler's domain
(`self.domain`): trim and drop non-breaking spaces, require an `http://` or
`https://` start, reject over-long or space-containing paths, drop every path
segment containing the domain as a substring, and reassemble. -/
def cleanUrl (domain : Str) (url0 : Str) : Option Str :=
  let url1 := normUrl url0
  if ("http://".toList.isPrefixOf url1 ∨ "https://".toList.isPrefixOf url1) then
    let p := pyUrlparse url1
    if p.path.length > 500 ∨ ' ' ∈ p.path then none
    else
      let keep := (splitOnChar '/' p.path).filter (fun part => ¬ containsSeq domain part)
      some (p.scheme ++ "://".toList ++ p.netloc ++ joinChar '/' keep ++
        (if p.query ≠ [] then '?' :: p.query else []))
  else none

example : cleanUrl "a.com".toList " http://a.com ".toList =
    some "http://a.com".toList := by decide

example : cleanUrl "a.com".toList "http://a.com/p?q= #f".toList =
    some "http://a.com/p?q= ".toList := by decide

example : cleanUrl "a.com".toList "http://b.org/x/a.com-mirror/y".toList =
    some "http://b.org/x/y".toList := by decide

/-- Python `s.replace(pat, '')`: delete the occurrences of `pat` left to
right, non-overlapping (with fuel; each step consumes at least one
character, so `s.length` always suffices). -/
def pyReplaceDel (pat : Str) : Nat → Str → Str
  | 0, s => s
  | fuel + 1, s =>
    match s with
    | [] => []
    | c :: cs =>
      if pat ≠ [] ∧ pat.isPrefixOf (c :: cs) then
        pyReplaceDel pat fuel ((c :: cs).drop pat.length)
      else c :: pyReplaceDel pat fuel cs

def removeOccurrences (pat s : Str) : Str := pyReplaceDel pat s.length s

/-- The filename base of `WebsiteCrawler.save_content`:
`url.replace(self.start_url, '').strip('/')`, defaulting to `index`, with
`/` replaced by `_`. -/
def deriveFilename (startUrl url : Str) : Str :=
  let f0 := pyStripChar '/' (removeOccurrences startUrl url)
  let f1 := if f0 = [] then "index".toList else f0
  f1.map (fun c => if c = '/' then '_' else c)

example : deriveFilename "http://a.com".toList "http://a.com/x/y".toList =
    "x_y".toList := by decide

example : deriveFilename "http://a.com".toList "http://a.com".toList =
    "index".toList := by decide

/-! ## Lemmas about the string splitters -/

lemma breakAtChar_not_mem (ch : Char) (l : Str) (h : ch ∉ l) :
    breakAtChar ch l = (l, none) := by
  induction l with
  | nil => rfl
  | cons c cs ih =>
    rw [breakAtChar]
    rw [if_neg (by intro h2; exact h (h2 ▸ List.mem_cons_self c cs))]
    rw [ih (fun h2 => h (List.mem_cons_of_mem c h2))]

lemma breakAtChar_append (ch : Char) (xs ys : Str) (h : ch ∉ xs) :
    breakAtChar ch (xs ++ ch :: ys) = (xs, some ys) := by
  induction xs with
  | nil => simp [breakAtChar]
  | cons c cs ih =>
    rw [List.cons_append, breakAtChar]
    rw [if_neg (by intro h2; exact h (h2 ▸ List.mem_cons_self c cs))]
    rw [ih (fun h2 => h (List.mem_cons_of_mem c h2))]

lemma breakAtChar_eq_some (ch : Char) (l a r : Str)
    (h : breakAtChar ch l = (a, some r)) : l = a ++ ch :: r ∧ ch ∉ a := by
  induction l generalizing a with
  | nil => simp [breakAtChar] at h
  | cons c cs ih =>
    rw [breakAtChar] at h
    by_cases hc : c = ch
    · rw [if_pos hc] at h
      simp only [Prod.mk.injEq, Option.some.injEq] at h
      obtain ⟨rfl, rfl⟩ := h
      simp [hc]
    · rw [if_neg hc] at h
      simp only [Prod.mk.injEq] at h
      obtain ⟨h1, h2⟩ := h
      have hb : breakAtChar ch cs = ((breakAtChar ch cs).1, some r) := by
        rw [← h2]
      obtain ⟨h3, h4⟩ := ih (breakAtChar ch cs).1 hb
      subst h1
      constructor
      · rw [List.cons_append, ← h3]
      · intro hmem
        rcases List.mem_cons.mp hmem with h5 | h5
        · exact hc h5.symm
        · exact h4 h5

lemma takeWhile_dropWhile_append (p : Char → Bool) (xs ys : Str)
    (hx : ∀ x ∈ xs, p x = true)
    (hy : ys = [] ∨ ∃ z zs, ys = z :: zs ∧ p z = false) :
    (xs ++ ys).takeWhile p = xs ∧ (xs ++ ys).dropWhile p = ys := by
  induction xs with
  | nil =>
    rcases hy with rfl | ⟨z, zs, rfl, hz⟩
    · simp
    · simp [List.takeWhile_cons, List.dropWhile_cons, hz]
  | cons c cs ih =>
    have hc := hx c (List.mem_cons_self c cs)
    obtain ⟨ih1, ih2⟩ := ih (fun x hx2 => hx x (List.mem_cons_of_mem c hx2))
    constructor
    · rw [List.cons_append, List.takeWhile_cons, hc, if_pos rfl, ih1]
    · rw [List.cons_append, List.dropWhile_cons, hc, if_pos rfl, ih2]

lemma splitOnChar_ne_nil (sep : Char) (l : Str) : splitOnChar sep l ≠ [] := by
  cases l with
  | nil => simp [splitOnChar]
  | cons c cs =>
    rw [splitOnChar]
    by_cases hc : c = sep
    · simp [hc]
    · simp only [if_neg hc]
      cases splitOnChar sep cs with
      | nil => simp
      | cons h t => simp

lemma splitOnChar_mem_subset (sep : Char) (l : Str) :
    ∀ part ∈ splitOnChar sep l, ∀ c ∈ part, c ∈ l := by
  induction l with
  | nil =>
    intro part hp c hc
    simp [splitOnChar] at hp
    rw [hp] at hc
    simp at hc
  | cons a as ih =>
    intro part hp c hc
    rw [splitOnChar] at hp
    by_cases ha : a = sep
    · rw [if_pos ha] at hp
      rcases List.mem_cons.mp hp with rfl | hp2
      · simp at hc
      · exact List.mem_cons_of_mem a (ih part hp2 c hc)
    · rw [if_neg ha] at hp
      cases hsp : splitOnChar sep as with
      | nil => exact absurd hsp (splitOnChar_ne_nil sep as)
      | cons h t =>
        rw [hsp] at hp
        rcases List.mem_cons.mp hp with rfl | hp2
        · rcases List.mem_cons.mp hc with rfl | hc2
          · exact List.mem_cons_self c as
          · exact List.mem_cons_of_mem a (ih h (hsp ▸ List.mem_cons_self h t) c hc2)
        · exact List.mem_cons_of_mem a (ih part (hsp ▸ List.mem_cons_of_mem h hp2) c hc)

lemma splitOnChar_no_sep (sep : Char) (l : Str) :
    ∀ part ∈ splitOnChar sep l, sep ∉ part := by
  induction l with
  | nil =>
    intro part hp
    simp [splitOnChar] at hp
    simp [hp]
  | cons a as ih =>
    intro part hp
    rw [splitOnChar] at hp
    by_cases ha : a = sep
    · rw [if_pos ha] at hp
      rcases List.mem_cons.mp hp with rfl | hp2
      · simp
      · exact ih part hp2
    · rw [if_neg ha] at hp
      cases hsp : splitOnChar sep as with
      | nil => exact absurd hsp (splitOnChar_ne_nil sep as)
      | cons h t =>
        rw [hsp] at hp
        rcases List.mem_cons.mp hp with rfl | hp2
        · intro hmem
          rcases List.mem_cons.mp hmem with h3 | h3
          · exact ha h3.symm
          · exact ih h (hsp ▸ List.mem_cons_self h t) h3
        · exact ih part (hsp ▸ List.mem_cons_of_mem h hp2)

lemma joinChar_splitOnChar (sep : Char) (l : Str) :
    joinChar sep (splitOnChar sep l) = l := by
  induction l with
  | nil => rfl
  | cons c cs ih =>
    rw [splitOnChar]
    by_cases hc : c = sep
    · rw [if_pos hc]
      cases hsp : splitOnChar sep cs with
      | nil => exact absurd hsp (splitOnChar_ne_nil sep cs)
      | cons h t =>
        rw [hsp] at ih
        rw [joinChar, List.nil_append, hc, ih]
    · rw [if_neg hc]
      cases hsp : splitOnChar sep cs with
      | nil => exact absurd hsp (splitOnChar_ne_nil sep cs)
      | cons h t =>
        rw [hsp] at ih
        cases t with
        | nil =>
          rw [joinChar]
          rw [joinChar] at ih
          rw [ih]
        | cons t0 ts =>
          rw [joinChar]
          rw [joinChar] at ih
          rw [List.cons_append, ih]

lemma splitOnChar_sep_free (sep : Char) (h : Str) (hh : sep ∉ h) :
    splitOnChar sep h = [h] := by
  induction h with
  | nil => rfl
  | cons c cs ih =>
    rw [splitOnChar]
    rw [if_neg (fun e => hh (by rw [e]; exact List.mem_cons_self _ _))]
    rw [ih (fun hm => hh (List.mem_cons_of_mem c hm))]

lemma splitOnChar_append_sep (sep : Char) (h rest : Str) (hh : sep ∉ h) :
    splitOnChar sep (h ++ sep :: rest) = h :: splitOnChar sep rest := by
  induction h with
  | nil =>
    rw [List.nil_append, splitOnChar, if_pos rfl]
  | cons c cs ih =>
    rw [List.cons_append, splitOnChar]
    rw [if_neg (fun e => hh (by rw [e]; exact List.mem_cons_self _ _))]
    rw [ih (fun hm => hh (List.mem_cons_of_mem c hm))]

lemma splitOnChar_joinChar (sep : Char) (ps : List Str)
    (hps : ∀ p ∈ ps, sep ∉ p) (hne : ps ≠ []) :
    splitOnChar sep (joinChar sep ps) = ps := by
  induction ps with
  | nil => exact absurd rfl hne
  | cons h t ih =>
    cases t with
    | nil =>
      rw [joinChar]
      exact splitOnChar_sep_free sep h (hps h (List.mem_cons_self h []))
    | cons t0 ts =>
      rw [joinChar]
      rw [splitOnChar_append_sep sep h _ (hps h (List.mem_cons_self h _))]
      rw [ih (fun p hp => hps p (List.mem_cons_of_mem h hp)) (by simp)]

lemma breakAtChar_eq_none (ch : Char) (l a : Str)
    (h : breakAtChar ch l = (a, none)) : a = l ∧ ch ∉ l := by
  induction l generalizing a with
  | nil =>
    simp only [breakAtChar, Prod.mk.injEq] at h
    simp [h.1.symm]
  | cons c cs ih =>
    rw [breakAtChar] at h
    by_cases hc : c = ch
    · rw [if_pos hc] at h
      simp at h
    · rw [if_neg hc] at h
      simp only [Prod.mk.injEq] at h
      obtain ⟨h1, h2⟩ := h
      have hb : breakAtChar ch cs = ((breakAtChar ch cs).1, none) := by
        rw [← h2]
      obtain ⟨h3, h4⟩ := ih (breakAtChar ch cs).1 hb
      subst h1
      refine ⟨by rw [h3], ?_⟩
      intro hmem
      rcases List.mem_cons.mp hmem with h5 | h5
      · exact hc h5.symm
      · exact h4 h5

/-- `splitAtChar` fully characterised: either the character occurs and the
parts assemble, or it is absent and the input is returned whole. -/
lemma splitAtChar_spec (ch : Char) (l : Str) :
    (l = (splitAtChar ch l).1 ++ ch :: (splitAtChar ch l).2 ∧
      ch ∉ (splitAtChar ch l).1) ∨
    ((splitAtChar ch l).1 = l ∧ (splitAtChar ch l).2 = [] ∧ ch ∉ l) := by
  unfold splitAtChar
  cases hb : breakAtChar ch l with
  | mk a ob =>
    cases ob with
    | none =>
      obtain ⟨h1, h2⟩ := breakAtChar_eq_none ch l a hb
      exact Or.inr ⟨h1, rfl, h2⟩
    | some r =>
      obtain ⟨h1, h2⟩ := breakAtChar_eq_some ch l a r hb
      exact Or.inl ⟨h1, h2⟩

lemma splitAtChar_fst_no_ch (ch : Char) (l : Str) : ch ∉ (splitAtChar ch l).1 := by
  rcases splitAtChar_spec ch l with ⟨_, h⟩ | ⟨h1, _, h2⟩
  · exact h
  · rw [h1]
    exact h2

lemma splitAtChar_fst_leading (ch : Char) (l : Str) : (splitAtChar ch l).1 <+: l := by
  rcases splitAtChar_spec ch l with ⟨h1, _⟩ | ⟨h1, _, _⟩
  · exact ⟨ch :: (splitAtChar ch l).2, h1.symm⟩
  · rw [h1]

lemma splitAtChar_snd_subset (ch : Char) (l : Str) :
    ∀ x ∈ (splitAtChar ch l).2, x ∈ l := by
  intro x hx
  rcases splitAtChar_spec ch l with ⟨h1, _⟩ | ⟨_, h2, _⟩
  · rw [h1]
    exact List.mem_append_right _ (List.mem_cons_of_mem ch hx)
  · rw [h2] at hx
    simp at hx

lemma splitParams_fst_leading (p : Str) : (splitParams p).1 <+: p := by
  unfold splitParams
  by_cases hc : p.contains '/'
  · rw [if_pos hc]
    cases hbk : breakAtChar ';' (p.reverse.takeWhile (fun c => ¬ (c = '/'))).reverse with
    | mk a ob =>
      cases ob with
      | none => exact List.prefix_refl p
      | some b =>
        obtain ⟨h1, _⟩ := breakAtChar_eq_some ';' _ a b hbk
        refine ⟨';' :: b, ?_⟩
        have hsplit : p = (p.reverse.dropWhile (fun c => ¬ (c = '/'))).reverse ++
            (p.reverse.takeWhile (fun c => ¬ (c = '/'))).reverse := by
          conv_lhs => rw [← List.reverse_reverse p]
          rw [← List.reverse_append, List.takeWhile_append_dropWhile]
        rw [List.append_assoc, ← h1]
        exact hsplit.symm
  · rw [if_neg hc]
    cases hbk : breakAtChar ';' p with
    | mk a ob =>
      cases ob with
      | none => exact List.prefix_refl p
      | some b =>
        obtain ⟨h1, _⟩ := breakAtChar_eq_some ';' _ a b hbk
        exact ⟨';' :: b, h1.symm⟩

lemma splitParams_no_semi (p : Str) (h : ';' ∉ p) : splitParams p = (p, []) := by
  unfold splitParams
  by_cases hc : p.contains '/'
  · rw [if_pos hc]
    have hl : ';' ∉ (p.reverse.takeWhile (fun c => ¬ (c = '/'))).reverse := by
      intro hm
      rw [List.mem_reverse] at hm
      exact h (List.mem_reverse.mp ((List.takeWhile_sublist _).subset hm))
    rw [breakAtChar_not_mem _ _ hl]
  · rw [if_neg hc]
    rw [breakAtChar_not_mem _ _ h]

lemma joinChar_length (sep : Char) (ps : List Str) :
    (joinChar sep ps).length = (ps.map List.length).sum + (ps.length - 1) := by
  induction ps with
  | nil => rfl
  | cons h t ih =>
    cases t with
    | nil => simp [joinChar]
    | cons t0 ts =>
      rw [joinChar, List.length_append, List.length_cons, ih]
      simp only [List.map_cons, List.sum_cons, List.length_cons]
      omega

lemma joinChar_filter_length_le (sep : Char) (q : Str → Bool) (ps : List Str) :
    (joinChar sep (ps.filter q)).length ≤ (joinChar sep ps).length := by
  rw [joinChar_length, joinChar_length]
  have h1 : ((ps.filter q).map List.length).sum ≤ (ps.map List.length).sum :=
    List.Sublist.sum_le_sum ((List.filter_sublist ps).map List.length)
      (fun a _ => Nat.zero_le a)
  have h2 : (ps.filter q).length ≤ ps.length := List.length_filter_le q ps
  omega

lemma joinChar_mem (sep : Char) (ps : List Str) :
    ∀ c ∈ joinChar sep ps, c = sep ∨ ∃ p ∈ ps, c ∈ p := by
  induction ps with
  | nil =>
    intro c hc
    simp [joinChar] at hc
  | cons h t ih =>
    cases t with
    | nil =>
      intro c hc
      rw [joinChar] at hc
      exact Or.inr ⟨h, List.mem_cons_self h [], hc⟩
    | cons t0 ts =>
      intro c hc
      rw [joinChar] at hc
      rcases List.mem_append.mp hc with hc2 | hc2
      · exact Or.inr ⟨h, List.mem_cons_self h _, hc2⟩
      · rcases List.mem_cons.mp hc2 with rfl | hc3
        · exact Or.inl rfl
        · rcases ih c hc3 with h4 | ⟨p, hp, hcp⟩
          · exact Or.inl h4
          · exact Or.inr ⟨p, List.mem_cons_of_mem h hp, hcp⟩

/-- Parsing a reassembled clean address recovers its components. -/
lemma pyUrlparse_reassembled (schemeStr netloc cleanPath query : Str)
    (hscheme : schemeStr = "http".toList ∨ schemeStr = "https".toList)
    (hnl : ∀ x ∈ netloc, isNetlocEnd x = false ∧ x ≠ '\t' ∧ x ≠ '\r' ∧ x ≠ '\n')
    (hpath : cleanPath = [] ∨ ∃ t, cleanPath = '/' :: t)
    (hpc : ∀ x ∈ cleanPath, x ≠ '?' ∧ x ≠ '#' ∧ x ≠ '\t' ∧ x ≠ '\r' ∧ x ≠ '\n')
    (hq : ∀ x ∈ query, x ≠ '#' ∧ x ≠ '\t' ∧ x ≠ '\r' ∧ x ≠ '\n') :
    pyUrlparse (schemeStr ++ "://".toList ++ netloc ++ cleanPath ++
        (if query ≠ [] then '?' :: query else [])) =
      ⟨schemeStr, netloc, (splitParams cleanPath).1, (splitParams cleanPath).2,
        query, []⟩ := by
  have hqp : ∀ x ∈ (if query ≠ [] then '?' :: query else []),
      x ≠ '#' ∧ x ≠ '\t' ∧ x ≠ '\r' ∧ x ≠ '\n' := by
    intro x hx
    by_cases hque : query = []
    · rw [if_neg (by simp [hque])] at hx
      simp at hx
    · rw [if_pos hque] at hx
      rcases List.mem_cons.mp hx with rfl | hx2
      · refine ⟨by decide, by decide, by decide, by decide⟩
      · exact hq x hx2
  have hall : ∀ x ∈ schemeStr ++ "://".toList ++ netloc ++ cleanPath ++
      (if query ≠ [] then '?' :: query else []), ¬ (x = '\t' ∨ x = '\r' ∨ x = '\n') := by
    intro x hx
    simp only [List.append_assoc, List.mem_append] at hx
    rcases hx with hx | hx | hx | hx | hx
    · rcases hscheme with rfl | rfl
      · exact (by decide : ∀ y ∈ "http".toList, ¬ (y = '\t' ∨ y = '\r' ∨ y = '\n')) x hx
      · exact (by decide : ∀ y ∈ "https".toList, ¬ (y = '\t' ∨ y = '\r' ∨ y = '\n')) x hx
    · exact (by decide : ∀ y ∈ "://".toList, ¬ (y = '\t' ∨ y = '\r' ∨ y = '\n')) x hx
    · have := hnl x hx
      simp [this.2.1, this.2.2.1, this.2.2.2]
    · have := hpc x hx
      simp [this.2.2.1, this.2.2.2.1, this.2.2.2.2]
    · have := hqp x hx
      simp [this.2.1, this.2.2.1, this.2.2.2]
  have hcfull : removeUnsafeChars (schemeStr ++ "://".toList ++ netloc ++ cleanPath ++
      (if query ≠ [] then '?' :: query else [])) =
      schemeStr ++ "://".toList ++ netloc ++ cleanPath ++
        (if query ≠ [] then '?' :: query else []) :=
    List.filter_eq_self.mpr (fun x hx => by simpa using hall x hx)
  have hrearr : schemeStr ++ "://".toList ++ netloc ++ cleanPath ++
      (if query ≠ [] then '?' :: query else []) =
      schemeStr ++ ':' :: ('/' :: '/' :: (netloc ++ cleanPath ++
        (if query ≠ [] then '?' :: query else []))) := by
    simp only [List.append_assoc]
    rfl
  have hsch : splitScheme (schemeStr ++ "://".toList ++ netloc ++ cleanPath ++
      (if query ≠ [] then '?' :: query else [])) =
      (schemeStr, '/' :: '/' :: (netloc ++ cleanPath ++
        (if query ≠ [] then '?' :: query else []))) := by
    rw [hrearr]
    unfold splitScheme
    rw [breakAtChar_append ':' schemeStr _ (by rcases hscheme with rfl | rfl <;> decide)]
    rcases hscheme with rfl | rfl <;> rfl
  have hnet : splitNetloc ('/' :: '/' :: (netloc ++ cleanPath ++
      (if query ≠ [] then '?' :: query else []))) =
      (netloc, cleanPath ++ (if query ≠ [] then '?' :: query else [])) := by
    have hred : splitNetloc ('/' :: '/' :: (netloc ++ (cleanPath ++
        (if query ≠ [] then '?' :: query else [])))) =
        ((netloc ++ (cleanPath ++ (if query ≠ [] then '?' :: query else []))).takeWhile
            (fun c => ¬ isNetlocEnd c),
          (netloc ++ (cleanPath ++ (if query ≠ [] then '?' :: query else []))).dropWhile
            (fun c => ¬ isNetlocEnd c)) := rfl
    obtain ⟨ht, hd⟩ := takeWhile_dropWhile_append (fun c => decide (¬ isNetlocEnd c = true))
      netloc (cleanPath ++ (if query ≠ [] then '?' :: query else []))
      (fun x hx => by simp [(hnl x hx).1])
      (by
        rcases hpath with rfl | ⟨t, rfl⟩
        · by_cases hque : query = []
          · rw [if_neg (by simp [hque])]
            simp
          · rw [if_pos hque]
            exact Or.inr ⟨'?', query, by simp, by decide⟩
        · exact Or.inr ⟨'/', t ++ (if query ≠ [] then '?' :: query else []),
            by simp, by decide⟩)
    rw [List.append_assoc, hred, ht, hd]
  have hsharp : splitAtChar '#' (cleanPath ++ (if query ≠ [] then '?' :: query else [])) =
      (cleanPath ++ (if query ≠ [] then '?' :: query else []), []) := by
    unfold splitAtChar
    rw [breakAtChar_not_mem _ _ (by
      intro hm
      rcases List.mem_append.mp hm with hm2 | hm2
      · exact (hpc _ hm2).2.1 rfl
      · exact (hqp _ hm2).1 rfl)]
  have hquery : splitAtChar '?' (cleanPath ++ (if query ≠ [] then '?' :: query else [])) =
      (cleanPath, query) := by
    by_cases hque : query = []
    · rw [if_neg (by simp [hque]), List.append_nil]
      unfold splitAtChar
      rw [breakAtChar_not_mem _ _ (fun hm => (hpc _ hm).1 rfl), hque]
    · rw [if_pos hque]
      unfold splitAtChar
      rw [breakAtChar_append '?' cleanPath query (fun hm => (hpc _ hm).1 rfl)]
  simp only [pyUrlparse, hcfull, hsch, hnet, hsharp, hquery]

/-- Forward parse of any address beginning with `http://` or `https://`. -/
lemma pyUrlparse_http (pre rest : Str)
    (hpre : pre = "http".toList ∨ pre = "https".toList) :
    pyUrlparse (pre ++ "://".toList ++ rest) =
      ⟨pre,
        (removeUnsafeChars rest).takeWhile (fun c => ¬ isNetlocEnd c),
        (splitParams (splitAtChar '?' (splitAtChar '#'
          ((removeUnsafeChars rest).dropWhile (fun c => ¬ isNetlocEnd c))).1).1).1,
        (splitParams (splitAtChar '?' (splitAtChar '#'
          ((removeUnsafeChars rest).dropWhile (fun c => ¬ isNetlocEnd c))).1).1).2,
        (splitAtChar '?' (splitAtChar '#'
          ((removeUnsafeChars rest).dropWhile (fun c => ¬ isNetlocEnd c))).1).2,
        (splitAtChar '#'
          ((removeUnsafeChars rest).dropWhile (fun c => ¬ isNetlocEnd c))).2⟩ := by
  have h1 : removeUnsafeChars (pre ++ "://".toList ++ rest) =
      pre ++ "://".toList ++ removeUnsafeChars rest := by
    unfold removeUnsafeChars
    rw [List.filter_append, List.filter_append]
    rcases hpre with rfl | rfl <;> rfl
  have hrearr : pre ++ "://".toList ++ removeUnsafeChars rest =
      pre ++ ':' :: ('/' :: '/' :: removeUnsafeChars rest) := by
    simp only [List.append_assoc]
    rfl
  have hsch : splitScheme (pre ++ "://".toList ++ removeUnsafeChars rest) =
      (pre, '/' :: '/' :: removeUnsafeChars rest) := by
    rw [hrearr]
    unfold splitScheme
    rw [breakAtChar_append ':' pre _ (by rcases hpre with rfl | rfl <;> decide)]
    rcases hpre with rfl | rfl <;> rfl
  have hnet : splitNetloc ('/' :: '/' :: removeUnsafeChars rest) =
      ((removeUnsafeChars rest).takeWhile (fun c => ¬ isNetlocEnd c),
        (removeUnsafeChars rest).dropWhile (fun c => ¬ isNetlocEnd c)) := rfl
  simp only [pyUrlparse, h1, hsch, hnet]

lemma containsSeq_nil (s : Str) : containsSeq [] s = true := by
  cases s <;> simp [containsSeq, List.isPrefixOf]

lemma dropWhile_head_not (p : Char → Bool) (l : Str) :
    l.dropWhile p = [] ∨ ∃ z zs, l.dropWhile p = z :: zs ∧ p z = false := by
  induction l with
  | nil => exact Or.inl rfl
  | cons c cs ih =>
    rw [List.dropWhile_cons]
    by_cases hc : p c
    · rw [if_pos hc]
      exact ih
    · rw [if_neg hc]
      exact Or.inr ⟨c, cs, rfl, by simpa using hc⟩

/-- Every successful `clean_url` output decomposes into a scheme, a netloc, a
cleaned path and a query with the invariants needed for re-parsing. -/
lemma cleanUrl_decomp (domain url c : Str) (h : cleanUrl domain url = some c) :
    ∃ schemeStr netloc cleanPath query,
      c = schemeStr ++ "://".toList ++ netloc ++ cleanPath ++
          (if query ≠ [] then '?' :: query else []) ∧
      (schemeStr = "http".toList ∨ schemeStr = "https".toList) ∧
      (∀ x ∈ netloc, isNetlocEnd x = false ∧ x ≠ '\t' ∧ x ≠ '\r' ∧ x ≠ '\n' ∧
        x ≠ '\xa0') ∧
      (cleanPath = [] ∨ ∃ t, cleanPath = '/' :: t) ∧
      cleanPath.length ≤ 500 ∧
      (∀ x ∈ cleanPath, x ≠ ' ' ∧ x ≠ '?' ∧ x ≠ '#' ∧ x ≠ '\t' ∧ x ≠ '\r' ∧
        x ≠ '\n' ∧ x ≠ '\xa0') ∧
      (∀ x ∈ query, x ≠ '#' ∧ x ≠ '\t' ∧ x ≠ '\r' ∧ x ≠ '\n' ∧ x ≠ '\xa0') ∧
      joinChar '/' ((splitOnChar '/' cleanPath).filter
        (fun part => ¬ containsSeq domain part)) = cleanPath := by
  simp only [cleanUrl] at h
  split at h
  next hpre =>
    split at h
    next hguard => simp at h
    next hguard =>
      rw [Option.some.injEq] at h
      obtain ⟨pre, rest, hpre2, hsplit⟩ :
          ∃ pre rest, (pre = "http".toList ∨ pre = "https".toList) ∧
            normUrl url = pre ++ "://".toList ++ rest := by
        rcases hpre with hp | hp
        · obtain ⟨rest, hrest⟩ := List.isPrefixOf_iff_prefix.mp hp
          exact ⟨"http".toList, rest, Or.inl rfl, by rw [← hrest]; rfl⟩
        · obtain ⟨rest, hrest⟩ := List.isPrefixOf_iff_prefix.mp hp
          exact ⟨"https".toList, rest, Or.inr rfl, by rw [← hrest]; rfl⟩
      rw [hsplit, pyUrlparse_http pre rest hpre2] at h hguard
      simp only [not_or] at hguard
      simp only [] at h
      -- short names for the parse components
      obtain ⟨r, hr⟩ : ∃ r, removeUnsafeChars rest = r := ⟨_, rfl⟩
      rw [hr] at h hguard
      obtain ⟨nl, hnl⟩ : ∃ nl, r.takeWhile (fun c2 => ¬ isNetlocEnd c2) = nl := ⟨_, rfl⟩
      obtain ⟨rest2, hrest2⟩ : ∃ rest2, r.dropWhile (fun c2 => ¬ isNetlocEnd c2) = rest2 :=
        ⟨_, rfl⟩
      rw [hnl] at h
      rw [hrest2] at h hguard
      obtain ⟨x1, hx1⟩ : ∃ x1, (splitAtChar '#' rest2).1 = x1 := ⟨_, rfl⟩
      rw [hx1] at h hguard
      obtain ⟨pq, hpq⟩ : ∃ pq, (splitAtChar '?' x1).1 = pq := ⟨_, rfl⟩
      obtain ⟨query, hquery⟩ : ∃ q, (splitAtChar '?' x1).2 = q := ⟨_, rfl⟩
      rw [hpq] at h hguard
      rw [hquery] at h
      obtain ⟨path, hpath⟩ : ∃ p, (splitParams pq).1 = p := ⟨_, rfl⟩
      rw [hpath] at h hguard
      -- membership chains
      have hmem_u1 : ∀ x ∈ normUrl url, ¬ (x = '\xa0') := by
        intro x hx
        unfold normUrl at hx
        simpa using (List.mem_filter.mp hx).2
      have hmem_rest : ∀ x ∈ rest, x ∈ normUrl url := by
        intro x hx
        rw [hsplit]
        exact List.mem_append_right _ hx
      have hmem_r : ∀ x ∈ r, (¬ (x = '\t' ∨ x = '\r' ∨ x = '\n')) ∧ x ∈ rest := by
        intro x hx
        rw [← hr] at hx
        unfold removeUnsafeChars at hx
        obtain ⟨h1, h2⟩ := List.mem_filter.mp hx
        exact ⟨by simpa using h2, h1⟩
      have hmem_rest2 : ∀ x ∈ rest2, x ∈ r := by
        intro x hx
        rw [← hrest2] at hx
        exact (List.dropWhile_sublist _).subset hx
      have hmem_x1 : ∀ x ∈ x1, x ∈ rest2 := by
        intro x hx
        rw [← hx1] at hx
        exact (splitAtChar_fst_leading '#' rest2).subset hx
      have hmem_pq : ∀ x ∈ pq, x ∈ x1 := by
        intro x hx
        rw [← hpq] at hx
        exact (splitAtChar_fst_leading '?' x1).subset hx
      have hmem_path : ∀ x ∈ path, x ∈ pq := by
        intro x hx
        rw [← hpath] at hx
        exact (splitParams_fst_leading pq).subset hx
      have hnosharp_x1 : '#' ∉ x1 := by
        rw [← hx1]
        exact splitAtChar_fst_no_ch '#' rest2
      have hnoq_pq : '?' ∉ pq := by
        rw [← hpq]
        exact splitAtChar_fst_no_ch '?' x1
      have hdownfacts : ∀ x ∈ rest2, ¬ (x = '\t' ∨ x = '\r' ∨ x = '\n') ∧
          ¬ (x = '\xa0') := by
        intro x hx
        have h4 := hmem_r x (hmem_rest2 x hx)
        exact ⟨h4.1, hmem_u1 x (hmem_rest x h4.2)⟩
      have hpathfacts : ∀ x ∈ path, x ≠ ' ' ∧ x ≠ '?' ∧ x ≠ '#' ∧ x ≠ '\t' ∧
          x ≠ '\r' ∧ x ≠ '\n' ∧ x ≠ '\xa0' := by
        intro x hx
        have h1 := hmem_pq x (hmem_path x hx)
        have h2 := hmem_x1 x h1
        have h5 := hdownfacts x h2
        refine ⟨fun e => hguard.2 (e ▸ hx), fun e => hnoq_pq (e ▸ hmem_path x hx),
          fun e => hnosharp_x1 (e ▸ h1), ?_, ?_, ?_, ?_⟩
        · intro e; exact h5.1 (Or.inl e)
        · intro e; exact h5.1 (Or.inr (Or.inl e))
        · intro e; exact h5.1 (Or.inr (Or.inr e))
        · exact h5.2
      have hqfacts : ∀ x ∈ query, x ≠ '#' ∧ x ≠ '\t' ∧ x ≠ '\r' ∧ x ≠ '\n' ∧
          x ≠ '\xa0' := by
        intro x hx
        rw [← hquery] at hx
        have h1 : x ∈ x1 := splitAtChar_snd_subset '?' x1 x hx
        have h2 := hmem_x1 x h1
        have h5 := hdownfacts x h2
        refine ⟨fun e => hnosharp_x1 (e ▸ h1), ?_, ?_, ?_, h5.2⟩
        · intro e; exact h5.1 (Or.inl e)
        · intro e; exact h5.1 (Or.inr (Or.inl e))
        · intro e; exact h5.1 (Or.inr (Or.inr e))
      have hnlfacts : ∀ x ∈ nl, isNetlocEnd x = false ∧ x ≠ '\t' ∧ x ≠ '\r' ∧
          x ≠ '\n' ∧ x ≠ '\xa0' := by
        intro x hx
        rw [← hnl] at hx
        have hp := List.mem_takeWhile_imp hx
        have hxr : x ∈ r := (List.takeWhile_sublist _).subset hx
        have h4 := hmem_r x hxr
        refine ⟨by simpa using hp, ?_, ?_, ?_,
          hmem_u1 x (hmem_rest x h4.2)⟩
        · intro e; exact h4.1 (Or.inl e)
        · intro e; exact h4.1 (Or.inr (Or.inl e))
        · intro e; exact h4.1 (Or.inr (Or.inr e))
      -- shape of the path
      have hpathshape : path = [] ∨ ∃ t, path = '/' :: t := by
        cases hpc : path with
        | nil => exact Or.inl rfl
        | cons p0 ps =>
          refine Or.inr ⟨ps, ?_⟩
          have hp0path : p0 ∈ path := by rw [hpc]; exact List.mem_cons_self _ _
          have hp0 : p0 ∈ rest2 := hmem_x1 p0 (hmem_pq p0 (hmem_path p0 hp0path))
          have hpfx : path <+: rest2 := by
            calc path <+: pq := by rw [← hpath]; exact splitParams_fst_leading pq
            _ <+: x1 := by rw [← hpq]; exact splitAtChar_fst_leading '?' x1
            _ <+: rest2 := by rw [← hx1]; exact splitAtChar_fst_leading '#' rest2
          obtain ⟨t2, ht2⟩ := hpfx
          rcases dropWhile_head_not (fun c2 => decide (¬ isNetlocEnd c2 = true)) r with
            hdw | ⟨z, zs, hdw, hz⟩
          · rw [hrest2] at hdw
            rw [← ht2, hpc] at hdw
            simp at hdw
          · rw [hrest2] at hdw
            have hzp : z = p0 := by
              rw [← ht2, hpc] at hdw
              injection hdw with h7 h8
              exact h7.symm
            have hzend : isNetlocEnd z = true := by
              simpa using hz
            rw [hzp] at hzend
            have hfacts := hpathfacts p0 hp0path
            have : p0 = '/' ∨ p0 = '?' ∨ p0 = '#' := by
              simpa [isNetlocEnd] using hzend
            rcases this with e | e | e
            · rw [e]
            · exact absurd e hfacts.2.1
            · exact absurd e hfacts.2.2.1
      -- the cleaned path
      obtain ⟨keep, hkeep⟩ : ∃ k, (splitOnChar '/' path).filter
          (fun part => ¬ containsSeq domain part) = k := ⟨_, rfl⟩
      rw [hkeep] at h
      obtain ⟨cp, hcp⟩ : ∃ cp, joinChar '/' keep = cp := ⟨_, rfl⟩
      rw [hcp] at h
      have hcp_len : cp.length ≤ 500 := by
        rw [← hcp, ← hkeep]
        calc (joinChar '/' ((splitOnChar '/' path).filter
            (fun part => ¬ containsSeq domain part))).length
            ≤ (joinChar '/' (splitOnChar '/' path)).length :=
              joinChar_filter_length_le '/' _ _
        _ = path.length := by rw [joinChar_splitOnChar]
        _ ≤ 500 := by omega
      have hcp_mem : ∀ x ∈ cp, x = '/' ∨ x ∈ path := by
        intro x hx
        rw [← hcp] at hx
        rcases joinChar_mem '/' keep x hx with e | ⟨p2, hp2, hxp⟩
        · exact Or.inl e
        · rw [← hkeep] at hp2
          exact Or.inr (splitOnChar_mem_subset '/' path p2 (List.mem_filter.mp hp2).1 x hxp)
      have hcpfacts : ∀ x ∈ cp, x ≠ ' ' ∧ x ≠ '?' ∧ x ≠ '#' ∧ x ≠ '\t' ∧
          x ≠ '\r' ∧ x ≠ '\n' ∧ x ≠ '\xa0' := by
        intro x hx
        rcases hcp_mem x hx with rfl | hxp
        · refine ⟨by decide, by decide, by decide, by decide, by decide, by decide,
            by decide⟩
        · exact hpathfacts x hxp
      have hcpshape : cp = [] ∨ ∃ t, cp = '/' :: t := by
        by_cases hdom : domain = []
        · left
          rw [← hcp, ← hkeep]
          rw [List.filter_eq_nil_iff.mpr (fun a _ => by simp [hdom, containsSeq_nil])]
          rfl
        · rcases hpathshape with rfl | ⟨t, rfl⟩
          · rw [← hcp, ← hkeep]
            simp only [splitOnChar]
            rw [List.filter_cons,
              if_pos (by simp [containsSeq, List.isEmpty_iff, hdom]), List.filter_nil]
            exact Or.inl rfl
          · rw [← hcp, ← hkeep]
            rw [splitOnChar, if_pos rfl]
            rw [List.filter_cons,
              if_pos (by simp [containsSeq, List.isEmpty_iff, hdom])]
            cases hrem : (splitOnChar '/' t).filter
                (fun part => ¬ containsSeq domain part) with
            | nil => exact Or.inl rfl
            | cons k ks =>
              right
              rw [joinChar]
              exact ⟨joinChar '/' (k :: ks), rfl⟩
      have hstable : joinChar '/' ((splitOnChar '/' cp).filter
          (fun part => ¬ containsSeq domain part)) = cp := by
        cases hk : keep with
        | nil =>
          have hcpnil : cp = [] := by rw [← hcp, hk]; rfl
          rw [hcpnil]
          simp only [splitOnChar]
          by_cases hd : containsSeq domain []
          · rw [List.filter_cons, if_neg (by simp [hd]), List.filter_nil]
            rfl
          · rw [List.filter_cons, if_pos (by simp [hd]), List.filter_nil]
            rfl
        | cons k ks =>
          have hsepfree : ∀ p2 ∈ keep, '/' ∉ p2 := by
            intro p2 hp2
            rw [← hkeep] at hp2
            exact splitOnChar_no_sep '/' path p2 (List.mem_filter.mp hp2).1
          have hsj : splitOnChar '/' cp = keep := by
            rw [← hcp]
            exact splitOnChar_joinChar '/' keep hsepfree (by rw [hk]; simp)
          rw [hsj]
          have hfilterstable : keep.filter (fun part => ¬ containsSeq domain part) = keep := by
            apply List.filter_eq_self.mpr
            intro a ha
            rw [← hkeep] at ha
            exact (List.mem_filter.mp ha).2
          rw [hfilterstable, hcp]
      exact ⟨pre, nl, cp, query, h.symm, hpre2, hnlfacts, hcpshape, hcp_len,
        hcpfacts, hqfacts, hstable⟩
  next hpre => simp at h

/-- C6: every successful `clean_url` output begins with `http://` or
`https://`, its path component contains no literal space, and its path
component has length at most 500. -/
theorem cleanUrl_output_shape (domain url c : Str) (h : cleanUrl domain url = some c) :
    ("http://".toList.isPrefixOf c ∨ "https://".toList.isPrefixOf c) ∧
      ' ' ∉ (pyUrlparse c).path ∧ (pyUrlparse c).path.length ≤ 500 := by
  obtain ⟨sch, nl, cp, q, hc, hsch, hnl, hshape, hlen, hcp, hq, hstable⟩ :=
    cleanUrl_decomp domain url c h
  have hparse := pyUrlparse_reassembled sch nl cp q hsch
    (fun x hx => ⟨(hnl x hx).1, (hnl x hx).2.1, (hnl x hx).2.2.1, (hnl x hx).2.2.2.1⟩)
    hshape
    (fun x hx => ⟨(hcp x hx).2.1, (hcp x hx).2.2.1, (hcp x hx).2.2.2.1,
      (hcp x hx).2.2.2.2.1, (hcp x hx).2.2.2.2.2.1⟩)
    (fun x hx => ⟨(hq x hx).1, (hq x hx).2.1, (hq x hx).2.2.1, (hq x hx).2.2.2.1⟩)
  refine ⟨?_, ?_, ?_⟩
  · rcases hsch with rfl | rfl
    · left
      rw [List.isPrefixOf_iff_prefix]
      exact ⟨nl ++ (cp ++ (if q ≠ [] then '?' :: q else [])), by
        rw [hc]; simp only [List.append_assoc]; rfl⟩
    · right
      rw [List.isPrefixOf_iff_prefix]
      exact ⟨nl ++ (cp ++ (if q ≠ [] then '?' :: q else [])), by
        rw [hc]; simp only [List.append_assoc]; rfl⟩
  · rw [hc, hparse]
    intro hmem
    exact (hcp ' ' ((splitParams_fst_leading cp).subset hmem)).1 rfl
  · rw [hc, hparse]
    calc (splitParams cp).1.length ≤ cp.length := (splitParams_fst_leading cp).length_le
    _ ≤ 500 := hlen

/-- Witness for C6 at a concrete address. -/
theorem cleanUrl_output_shape_witness :
    ("http://".toList.isPrefixOf "http://a.com/x".toList ∨
      "https://".toList.isPrefixOf "http://a.com/x".toList) ∧
      ' ' ∉ (pyUrlparse "http://a.com/x".toList).path ∧
      (pyUrlparse "http://a.com/x".toList).path.length ≤ 500 :=
  cleanUrl_output_shape "a.com".toList "http://a.com/x".toList
    "http://a.com/x".toList (by decide)

/-- C10 counterexample: `clean_url` is not idempotent. A fragment after a
space-bearing query produces a canonical form ending in a space; re-cleaning
strips that space and yields a different address. -/
theorem cleanUrl_not_idempotent_cex :
    cleanUrl "a.com".toList "http://a.com/p?q= #f".toList =
      some "http://a.com/p?q= ".toList ∧
    cleanUrl "a.com".toList "http://a.com/p?q= ".toList ≠
      some "http://a.com/p?q= ".toList := by
  constructor <;> decide

/-- C10 (amended): `clean_url` is a fixpoint on its own output provided the
output has no surrounding whitespace to strip and contains no `;`. -/
theorem cleanUrl_fixpoint (domain url c : Str) (h : cleanUrl domain url = some c)
    (hstrip : pyStrip c = c) (hsemi : ';' ∉ c) :
    cleanUrl domain c = some c := by
  obtain ⟨sch, nl, cp, q, hc, hsch, hnl, hshape, hlen, hcp, hq, hstable⟩ :=
    cleanUrl_decomp domain url c h
  have hparse := pyUrlparse_reassembled sch nl cp q hsch
    (fun x hx => ⟨(hnl x hx).1, (hnl x hx).2.1, (hnl x hx).2.2.1, (hnl x hx).2.2.2.1⟩)
    hshape
    (fun x hx => ⟨(hcp x hx).2.1, (hcp x hx).2.2.1, (hcp x hx).2.2.2.1,
      (hcp x hx).2.2.2.2.1, (hcp x hx).2.2.2.2.2.1⟩)
    (fun x hx => ⟨(hq x hx).1, (hq x hx).2.1, (hq x hx).2.2.1, (hq x hx).2.2.2.1⟩)
  have hnoxa : ∀ x ∈ c, ¬ (x = '\xa0') := by
    intro x hx
    rw [hc] at hx
    simp only [List.append_assoc, List.mem_append] at hx
    rcases hx with hx | hx | hx | hx | hx
    · rcases hsch with rfl | rfl
      · exact (by decide : ∀ y ∈ "http".toList, ¬ (y = '\xa0')) x hx
      · exact (by decide : ∀ y ∈ "https".toList, ¬ (y = '\xa0')) x hx
    · exact (by decide : ∀ y ∈ "://".toList, ¬ (y = '\xa0')) x hx
    · exact (hnl x hx).2.2.2.2
    · exact (hcp x hx).2.2.2.2.2.2
    · by_cases hqe : q = []
      · rw [if_neg (by simp [hqe])] at hx
        simp at hx
      · rw [if_pos hqe] at hx
        rcases List.mem_cons.mp hx with rfl | hx2
        · decide
        · exact (hq x hx2).2.2.2.2
  have hnorm : normUrl c = c := by
    unfold normUrl
    rw [hstrip]
    exact List.filter_eq_self.mpr (fun x hx => by simpa using hnoxa x hx)
  have hsemicp : ';' ∉ cp := by
    intro hmem
    apply hsemi
    rw [hc]
    exact List.mem_append_left _ (List.mem_append_right _ hmem)
  have hparse2 : pyUrlparse c = ⟨sch, nl, cp, [], q, []⟩ := by
    rw [hc, hparse, splitParams_no_semi cp hsemicp]
  have hpre : ("http://".toList.isPrefixOf c ∨ "https://".toList.isPrefixOf c) := by
    rcases hsch with rfl | rfl
    · left
      rw [List.isPrefixOf_iff_prefix]
      exact ⟨nl ++ (cp ++ (if q ≠ [] then '?' :: q else [])), by
        rw [hc]; simp only [List.append_assoc]; rfl⟩
    · right
      rw [List.isPrefixOf_iff_prefix]
      exact ⟨nl ++ (cp ++ (if q ≠ [] then '?' :: q else [])), by
        rw [hc]; simp only [List.append_assoc]; rfl⟩
  simp only [cleanUrl, hnorm, hparse2]
  rw [if_pos hpre]
  rw [if_neg (by
    simp only [not_or]
    refine ⟨by omega, fun hmem => (hcp ' ' hmem).1 rfl⟩)]
  rw [Option.some.injEq, hstable]
  exact hc.symm

/-- Witness for C10 at a concrete address. -/
theorem cleanUrl_fixpoint_witness :
    cleanUrl "a.com".toList "http://a.com/p".toList =
      some "http://a.com/p".toList :=
  cleanUrl_fixpoint "a.com".toList "http://a.com/p".toList
    "http://a.com/p".toList (by decide) (by decide) (by decide)

/-! ## C7: the filename derivation -/

/-- The filename recipe as the claim reads it: strip only a leading
occurrence of the seed address. -/
def leadingStripFilename (startUrl url : Str) : Str :=
  let f0 := pyStripChar '/' (if startUrl.isPrefixOf url then url.drop startUrl.length else url)
  let f1 := if f0 = [] then "index".toList else f0
  f1.map (fun c => if c = '/' then '_' else c)

/-- C7 counterexample: `url.replace(self.start_url, '')` removes every
occurrence of the seed address, also inside the query string, so the derived
filename differs from the leading-strip-only recipe of the claim. -/
theorem deriveFilename_leading_strip_cex :
    deriveFilename "http://a.com".toList "http://a.com/p?u=http://a.com/q".toList ≠
      leadingStripFilename "http://a.com".toList
        "http://a.com/p?u=http://a.com/q".toList := by
  decide

/-- Python `s.split(pat)` for a non-empty separator sequence, with fuel. -/
def splitOnSeq (pat : Str) : Nat → Str → List Str
  | 0, s => [s]
  | fuel + 1, s =>
    match s with
    | [] => [[]]
    | c :: cs =>
      if pat.isPrefixOf (c :: cs) then
        [] :: splitOnSeq pat fuel ((c :: cs).drop pat.length)
      else
        match splitOnSeq pat fuel cs with
        | h :: t => (c :: h) :: t
        | [] => [[c]]

/-- The amended claim's removal step, written independently of the code's
scanner: remove every occurrence of `pat` as `''.join(s.split(pat))`. -/
def specRemoveAll (pat s : Str) : Str :=
  if pat = [] then s else (splitOnSeq pat s.length s).flatten

/-- The amended claim's filename recipe: remove every occurrence of the seed
address, strip surrounding slashes, default to `index`, flatten `/` to `_`. -/
def filenameSpecC7 (startUrl url : Str) : Str :=
  let f0 := pyStripChar '/' (specRemoveAll startUrl url)
  let f1 := if f0 = [] then "index".toList else f0
  f1.map (fun c => if c = '/' then '_' else c)

lemma pyReplaceDel_nil_pat (fuel : Nat) (s : Str) : pyReplaceDel [] fuel s = s := by
  induction fuel generalizing s with
  | zero => rfl
  | succ f ih =>
    cases s with
    | nil => rfl
    | cons c cs =>
      rw [pyReplaceDel, if_neg (by simp)]
      rw [ih]

lemma splitOnSeq_ne_nil (pat : Str) (fuel : Nat) (s : Str) :
    splitOnSeq pat fuel s ≠ [] := by
  cases fuel with
  | zero => simp [splitOnSeq]
  | succ f =>
    cases s with
    | nil => simp [splitOnSeq]
    | cons c cs =>
      rw [splitOnSeq]
      by_cases hp : pat.isPrefixOf (c :: cs)
      · rw [if_pos hp]
        simp
      · rw [if_neg hp]
        cases splitOnSeq pat f cs with
        | nil => simp
        | cons h t => simp

lemma pyReplaceDel_eq_flatten (pat : Str) (hp : pat ≠ []) (fuel : Nat) (s : Str) :
    pyReplaceDel pat fuel s = (splitOnSeq pat fuel s).flatten := by
  induction fuel generalizing s with
  | zero => simp [pyReplaceDel, splitOnSeq]
  | succ f ih =>
    cases s with
    | nil => simp [pyReplaceDel, splitOnSeq]
    | cons c cs =>
      rw [pyReplaceDel, splitOnSeq]
      by_cases hpre : pat.isPrefixOf (c :: cs)
      · rw [if_pos ⟨hp, hpre⟩, if_pos hpre, ih]
        simp
      · rw [if_neg (fun hand => hpre hand.2), if_neg hpre]
        cases hsp : splitOnSeq pat f cs with
        | nil => exact absurd hsp (splitOnSeq_ne_nil pat f cs)
        | cons h t =>
          rw [ih, hsp]
          simp

/-- C7 (amended): the derived base filename equals the address with EVERY
occurrence of the seed address removed (Python `str.replace` semantics),
then surrounding `/` stripped, `index` when empty, and `/` flattened to
`_`. -/
theorem deriveFilename_removes_every_occurrence (startUrl url : Str) :
    deriveFilename startUrl url = filenameSpecC7 startUrl url := by
  unfold deriveFilename filenameSpecC7 removeOccurrences specRemoveAll
  by_cases hp : startUrl = []
  · rw [if_pos hp, hp, pyReplaceDel_nil_pat]
  · rw [if_neg hp, pyReplaceDel_eq_flatten startUrl hp url.length url]

/-! ## The crawl engine (`WebsiteCrawler` of `1_crawl_site_bs4.py`)

The network (`requests.get` + `raise_for_status`), `urljoin` and the
`mimetypes` tables are external collaborators; they enter the model as
parameters. `web u = none` models a `RequestException` (connection failure or
non-2xx status). The recursion on `depth` with its `depth > max_depth` guard
is embedded as structural recursion on the remaining depth budget
`fuel = max_depth + 1 - depth`. The state additionally records each fetched
address with the fuel at fetch time, as a ghost trace for the depth claims. -/

structure Response where
  contentTypeHeader : Str
  rurl : Str
  links : List Str
deriving DecidableEq

structure CrawlParams where
  startUrl : Str
  maxDepth : Nat
  maxDownloads : Nat
  web : Str → Option Response
  urljoin : Str → Str → Str
  guessType : Str → Option Str
  guessExt : Str → Option Str

structure CrawlSt where
  visited : List Str
  count : Nat
  saved : List Str
  fetched : List (Str × Nat)
deriving DecidableEq

def initSt : CrawlSt := ⟨[], 0, [], []⟩

/-- `self.domain = urlparse(start_url).netloc`. -/
def domainOf (P : CrawlParams) : Str := (pyUrlparse P.startUrl).netloc

def htmlMime : Str := "text/html".toList

/-- `WebsiteCrawler.get_mime_type`. -/
def getMimeType (P : CrawlParams) (r : Response) : Str :=
  let ct := ((splitOnChar ';' r.contentTypeHeader).headD []).map asciiLower
  if ct ≠ [] then ct
  else
    match P.guessType ((pyUrlparse r.rurl).path) with
    | some m => m
    | none => "application/octet-stream".toList

/-- `WebsiteCrawler.save_content`: derive the filename, write the file,
increment the download counter. -/
def saveContent (P : CrawlParams) (url : Str) (mime : Str) (st : CrawlSt) : CrawlSt :=
  let base := deriveFilename P.startUrl url
  let fname :=
    if mime = htmlMime then base ++ "_text.html".toList
    else base ++ (match P.guessExt mime with | some e => e | none => ".bin".toList)
  { st with saved := fname :: st.saved, count := st.count + 1 }

/-- `WebsiteCrawler.crawl(url, depth)`, with
`fuel = max_depth + 1 - depth`. -/
def crawl (P : CrawlParams) : Nat → Str → CrawlSt → CrawlSt
  | 0, _, st => st
  | fuel + 1, url, st =>
    if st.count ≥ P.maxDownloads then st
    else
      match cleanUrl (domainOf P) url with
      | none => st
      | some u =>
        if u = [] ∨ (pyUrlparse u).netloc ≠ domainOf P then st
        else if u ∈ st.visited then st
        else
          let st1 := { st with
            visited := u :: st.visited
            fetched := (u, fuel + 1) :: st.fetched }
          match P.web u with
          | none => st1
          | some r =>
            let mime := getMimeType P r
            let st2 := saveContent P u mime st1
            if mime = htmlMime then
              r.links.foldl (fun s href =>
                if href = [] then s else crawl P fuel (P.urljoin u href) s) st2
            else st2
termination_by structural fuel => fuel

/-- A sample crawl configuration: one page linking to one same-domain child
and one off-domain address. -/
def sampleParams : CrawlParams where
  startUrl := "http://a.com".toList
  maxDepth := 1
  maxDownloads := 5
  web := fun u =>
    if u = "http://a.com".toList then
      some ⟨"text/html".toList, u, ["/b".toList, "https://other.org".toList]⟩
    else if u = "http://a.com/b".toList then
      some ⟨"text/html".toList, u, []⟩
    else none
  urljoin := fun base href =>
    if "http://".toList.isPrefixOf href ∨ "https://".toList.isPrefixOf href then href
    else base ++ href
  guessType := fun _ => none
  guessExt := fun _ => none

example : (crawl sampleParams 2 sampleParams.startUrl initSt).count = 2 := by
  decide

example : (crawl sampleParams 2 sampleParams.startUrl initSt).fetched =
    [("http://a.com/b".toList, 1), ("http://a.com".toList, 2)] := by
  decide

/-! ## C4: the download budget invariant -/

/-- Both budget invariants of the crawl: the download counter never exceeds
`max_downloads`, and the number of persisted files equals the counter. -/
lemma crawl_inv (P : CrawlParams) :
    ∀ (fuel : Nat) (url : Str) (st : CrawlSt),
      st.count ≤ P.maxDownloads → st.saved.length = st.count →
      (crawl P fuel url st).count ≤ P.maxDownloads ∧
        (crawl P fuel url st).saved.length = (crawl P fuel url st).count := by
  intro fuel
  induction fuel with
  | zero => intro url st h1 h2; exact ⟨h1, h2⟩
  | succ fuel ih =>
    intro url st h1 h2
    rw [crawl]
    by_cases hcnt : st.count ≥ P.maxDownloads
    · rw [if_pos hcnt]
      exact ⟨h1, h2⟩
    · rw [if_neg hcnt]
      cases hcu : cleanUrl (domainOf P) url with
      | none => simp only []; exact ⟨h1, h2⟩
      | some u =>
        simp only []
        by_cases hval : (u = [] ∨ (pyUrlparse u).netloc ≠ domainOf P)
        · rw [if_pos hval]
          exact ⟨h1, h2⟩
        · rw [if_neg hval]
          by_cases hvis : u ∈ st.visited
          · rw [if_pos hvis]
            exact ⟨h1, h2⟩
          · rw [if_neg hvis]
            cases hweb : P.web u with
            | none => simp only []; exact ⟨h1, h2⟩
            | some r =>
              simp only []
              have hst2c : (saveContent P u (getMimeType P r)
                  { st with visited := u :: st.visited, fetched := (u, fuel + 1) :: st.fetched }).count ≤ P.maxDownloads := by
                simp only [saveContent]
                omega
              have hst2s : (saveContent P u (getMimeType P r)
                  { st with visited := u :: st.visited, fetched := (u, fuel + 1) :: st.fetched }).saved.length =
                  (saveContent P u (getMimeType P r)
                  { st with visited := u :: st.visited, fetched := (u, fuel + 1) :: st.fetched }).count := by
                simp only [saveContent, List.length_cons]
                omega
              by_cases hm : getMimeType P r = htmlMime
              · rw [if_pos hm]
                have hfold : ∀ (links : List Str) (s : CrawlSt),
                    s.count ≤ P.maxDownloads → s.saved.length = s.count →
                    (links.foldl (fun s2 href =>
                      if href = [] then s2 else crawl P fuel (P.urljoin u href) s2) s).count
                        ≤ P.maxDownloads ∧
                    (links.foldl (fun s2 href =>
                      if href = [] then s2 else crawl P fuel (P.urljoin u href) s2) s).saved.length =
                    (links.foldl (fun s2 href =>
                      if href = [] then s2 else crawl P fuel (P.urljoin u href) s2) s).count := by
                  intro links
                  induction links with
                  | nil => intro s hs1 hs2; exact ⟨hs1, hs2⟩
                  | cons hd tl ihl =>
                    intro s hs1 hs2
                    rw [List.foldl_cons]
                    by_cases hhd : hd = []
                    · rw [if_pos hhd]
                      exact ihl s hs1 hs2
                    · rw [if_neg hhd]
                      obtain ⟨ha, hb⟩ := ih (P.urljoin u hd) s hs1 hs2
                      exact ihl _ ha hb
                exact hfold r.links _ hst2c hst2s
              · rw [if_neg hm]
                exact ⟨hst2c, hst2s⟩

/-- C4: for a crawl configured with positive `max_downloads = N`, every step
of the recursive crawl preserves the invariant `download_count <= N` together
with "one persisted file per counted download", so the number of resources
persisted never exceeds N. -/
theorem crawl_download_budget (P : CrawlParams) (fuel : Nat) (url : Str)
    (st : CrawlSt) (_h0 : 0 < P.maxDownloads)
    (hc : st.count ≤ P.maxDownloads) (hs : st.saved.length = st.count) :
    (crawl P fuel url st).count ≤ P.maxDownloads ∧
      (crawl P fuel url st).saved.length ≤ P.maxDownloads := by
  obtain ⟨ha, hb⟩ := crawl_inv P fuel url st hc hs
  exact ⟨ha, by omega⟩

/-- Witness for C4 on the sample crawl. -/
theorem crawl_download_budget_witness :
    (crawl sampleParams 2 sampleParams.startUrl initSt).count ≤
      sampleParams.maxDownloads ∧
    (crawl sampleParams 2 sampleParams.startUrl initSt).saved.length ≤
      sampleParams.maxDownloads :=
  crawl_download_budget sampleParams 2 sampleParams.startUrl initSt
    (by decide) (by decide) (by decide)

/-! ## C5: the depth bound on fetches -/

/-- A link-path of the crawl graph of length `d` from the seed to a canonical
address: the seed's canonical form has a path of length 0, and one more hop
follows a hyperlink of a fetched HTML page. -/
inductive LinkPath (P : CrawlParams) : Nat → Str → Prop where
  | seed : ∀ u, cleanUrl (domainOf P) P.startUrl = some u → LinkPath P 0 u
  | step : ∀ d u r href v, LinkPath P d u → P.web u = some r →
      getMimeType P r = htmlMime → href ∈ r.links →
      cleanUrl (domainOf P) (P.urljoin u href) = some v → LinkPath P (d + 1) v

/-- A fetch-trace entry is good when it happened at a depth `d ≤ max_depth`
reached by a link-path of length `d` from the seed. -/
def GoodFetch (P : CrawlParams) (e : Str × Nat) : Prop :=
  ∃ d, d ≤ P.maxDepth ∧ LinkPath P d e.1 ∧ e.2 = P.maxDepth + 1 - d

lemma crawl_fetched_good (P : CrawlParams) :
    ∀ (fuel : Nat) (url : Str) (st : CrawlSt),
      fuel ≤ P.maxDepth + 1 →
      (∀ u, cleanUrl (domainOf P) url = some u →
        LinkPath P (P.maxDepth + 1 - fuel) u) →
      (∀ e ∈ st.fetched, GoodFetch P e) →
      ∀ e ∈ (crawl P fuel url st).fetched, GoodFetch P e := by
  intro fuel
  induction fuel with
  | zero => intro url st _ _ hst e he; exact hst e he
  | succ fuel ih =>
    intro url st hfle hpre hst e he
    rw [crawl] at he
    by_cases hcnt : st.count ≥ P.maxDownloads
    · rw [if_pos hcnt] at he
      exact hst e he
    · rw [if_neg hcnt] at he
      cases hcu : cleanUrl (domainOf P) url with
      | none =>
        rw [hcu] at he
        exact hst e he
      | some u =>
        rw [hcu] at he
        simp only [] at he
        by_cases hval : (u = [] ∨ (pyUrlparse u).netloc ≠ domainOf P)
        · rw [if_pos hval] at he
          exact hst e he
        · rw [if_neg hval] at he
          by_cases hvis : u ∈ st.visited
          · rw [if_pos hvis] at he
            exact hst e he
          · rw [if_neg hvis] at he
            have hlp : LinkPath P (P.maxDepth + 1 - (fuel + 1)) u := hpre u hcu
            have hgood_u : GoodFetch P (u, fuel + 1) :=
              ⟨P.maxDepth + 1 - (fuel + 1), by omega, hlp, by omega⟩
            have hst1 : ∀ e2 ∈ ((u, fuel + 1) :: st.fetched), GoodFetch P e2 := by
              intro e2 he2
              rcases List.mem_cons.mp he2 with rfl | he3
              · exact hgood_u
              · exact hst e2 he3
            cases hweb : P.web u with
            | none =>
              rw [hweb] at he
              simp only [] at he
              exact hst1 e he
            | some r =>
              rw [hweb] at he
              simp only [] at he
              by_cases hm : getMimeType P r = htmlMime
              · rw [if_pos hm] at he
                have hfold : ∀ (links : List Str), (∀ x ∈ links, x ∈ r.links) →
                    ∀ (s : CrawlSt), (∀ e2 ∈ s.fetched, GoodFetch P e2) →
                    ∀ e2 ∈ (links.foldl (fun s2 href =>
                      if href = [] then s2
                      else crawl P fuel (P.urljoin u href) s2) s).fetched,
                      GoodFetch P e2 := by
                  intro links
                  induction links with
                  | nil => intro _ s hs e2 he2; exact hs e2 he2
                  | cons hd tl ihl =>
                    intro hsub s hs e2 he2
                    rw [List.foldl_cons] at he2
                    refine ihl (fun x hx => hsub x (List.mem_cons_of_mem hd hx))
                      _ ?_ e2 he2
                    by_cases hhd : hd = []
                    · rw [if_pos hhd]
                      exact hs
                    · rw [if_neg hhd]
                      refine ih (P.urljoin u hd) s (by omega) ?_ hs
                      intro v hv
                      have hstep : LinkPath P ((P.maxDepth + 1 - (fuel + 1)) + 1) v :=
                        LinkPath.step _ u r hd v hlp hweb hm
                          (hsub hd (List.mem_cons_self hd tl)) hv
                      have heq : (P.maxDepth + 1 - (fuel + 1)) + 1 =
                          P.maxDepth + 1 - fuel := by omega
                      rw [heq] at hstep
                      exact hstep
                refine hfold r.links (fun x hx => hx) _ ?_ e he
                intro e2 he2
                apply hst1
                simpa [saveContent] using he2
              · rw [if_neg hm] at he
                apply hst1
                simpa [saveContent] using he

/-- C5: during a crawl with depth budget `max_depth = D` started at the seed,
every fetched address was fetched in an invocation at some depth `d <= D`
(its trace entry records the remaining budget `D + 1 - d`), and `d` is the
length of a link-path from the seed to that address — so the shortest
link-path from the seed to any fetched resource is at most `D`. -/
theorem crawl_fetch_depth_bounded (P : CrawlParams) (u : Str) (fu : Nat)
    (hmem : (u, fu) ∈ (crawl P (P.maxDepth + 1) P.startUrl initSt).fetched) :
    ∃ d, d ≤ P.maxDepth ∧ LinkPath P d u ∧ fu = P.maxDepth + 1 - d := by
  have hgood := crawl_fetched_good P (P.maxDepth + 1) P.startUrl initSt le_rfl
    (fun v hv => by
      have h0 : P.maxDepth + 1 - (P.maxDepth + 1) = 0 := by omega
      rw [h0]
      exact LinkPath.seed v hv)
    (by intro e2 he2; simp [initSt] at he2)
    (u, fu) hmem
  exact hgood

/-- Witness for C5 on the sample crawl: the child page was fetched with one
unit of budget left, over a link-path of length 1. -/
theorem crawl_fetch_depth_bounded_witness :
    ∃ d, d ≤ sampleParams.maxDepth ∧
      LinkPath sampleParams d "http://a.com/b".toList ∧
      1 = sampleParams.maxDepth + 1 - d :=
  crawl_fetch_depth_bounded sampleParams "http://a.com/b".toList 1 (by decide)

/-! ## C9: fetch-failure isolation -/

/-- C9: when all guards pass but the network fetch fails, `crawl` returns
normally with only the visited set and the fetch trace extended: no file is
written, the download counter is unchanged, and no links are followed, so
crawling of other pending addresses continues from an otherwise unchanged
state. -/
theorem crawl_fetch_failure_isolated (P : CrawlParams) (fuel : Nat) (url : Str)
    (st : CrawlSt) (u : Str)
    (hcnt : st.count < P.maxDownloads)
    (hcu : cleanUrl (domainOf P) url = some u)
    (hval : ¬ (u = [] ∨ (pyUrlparse u).netloc ≠ domainOf P))
    (hvis : u ∉ st.visited)
    (hweb : P.web u = none) :
    crawl P (fuel + 1) url st =
      { st with visited := u :: st.visited, fetched := (u, fuel + 1) :: st.fetched } ∧
    (crawl P (fuel + 1) url st).count = st.count ∧
    (crawl P (fuel + 1) url st).saved = st.saved := by
  have hmain : crawl P (fuel + 1) url st =
      { st with visited := u :: st.visited, fetched := (u, fuel + 1) :: st.fetched } := by
    rw [crawl, if_neg (by omega), hcu]
    simp only []
    rw [if_neg hval, if_neg hvis, hweb]
  refine ⟨hmain, ?_, ?_⟩ <;> rw [hmain]

/-- Witness for C9: a concrete crawl whose only fetch fails. -/
theorem crawl_fetch_failure_isolated_witness :
    crawl sampleParams 1 "http://a.com/dead".toList initSt =
      { initSt with visited := ["http://a.com/dead".toList], fetched := [("http://a.com/dead".toList, 1)] } ∧
    (crawl sampleParams 1 "http://a.com/dead".toList initSt).count = initSt.count ∧
    (crawl sampleParams 1 "http://a.com/dead".toList initSt).saved = initSt.saved :=
  crawl_fetch_failure_isolated sampleParams 0 "http://a.com/dead".toList initSt
    "http://a.com/dead".toList (by decide) (by decide) (by decide) (by decide)
    (by decide)

/-! ## The HTML-to-markdown conversion (`html_to_markdown` in
`2b_process_html_bs4.py`)

A parsed document (BeautifulSoup's tree) is modelled as a rose tree of
elements and text nodes; `find_all` is the pre-order listing of matching
descendant elements and `get_text` the concatenation of all text below a
node, as in BeautifulSoup. -/

mutual
inductive HNode where
  | text : Str → HNode
  | elem : Str → List (Str × Str) → HForest → HNode
inductive HForest where
  | nil : HForest
  | cons : HNode → HForest → HForest
end

deriving instance DecidableEq for HNode, HForest

mutual
def getTextN : HNode → Str
  | .text s => s
  | .elem _ _ cs => getTextF cs
def getTextF : HForest → Str
  | .nil => []
  | .cons n rest => getTextN n ++ getTextF rest
end

mutual
def findAllN (names : List Str) : HNode → List HNode
  | .text _ => []
  | .elem tag attrs cs =>
    (if tag ∈ names then [HNode.elem tag attrs cs] else []) ++ findAllF names cs
def findAllF (names : List Str) : HForest → List HNode
  | .nil => []
  | .cons n rest => findAllN names n ++ findAllF names rest
end

def nodeTag : HNode → Str
  | .text _ => []
  | .elem t _ _ => t

def nodeChildren : HNode → HForest
  | .text _ => .nil
  | .elem _ _ cs => cs

def nodeAttrs : HNode → List (Str × Str)
  | .text _ => []
  | .elem _ a _ => a

/-- `tag.get(key, dflt)`. -/
def getAttr (attrs : List (Str × Str)) (key dflt : Str) : Str :=
  match attrs.find? (fun p => p.1 = key) with
  | some p => p.2
  | none => dflt

def headingNames : List Str :=
  ["h1".toList, "h2".toList, "h3".toList, "h4".toList, "h5".toList, "h6".toList]

/-- `int(tag.name[1])` for a heading tag. -/
def headingLevel (tag : Str) : Nat :=
  match tag with
  | _ :: c :: _ => c.toNat - 48
  | _ => 0

/-- The two lines appended per heading. -/
def mdHeadingLines (n : HNode) : List Str :=
  [List.replicate (headingLevel (nodeTag n)) '#' ++ ' ' :: pyStrip (getTextN n), []]

/-- The lines appended per paragraph or list element. -/
def mdParaListLines (n : HNode) : List Str :=
  if nodeTag n = "p".toList then
    if pyStrip (getTextN n) ≠ [] then [pyStrip (getTextN n), []] else []
  else
    ((findAllF ["li".toList] (nodeChildren n)).filterMap (fun li =>
      if pyStrip (getTextN li) ≠ [] then some ('-' :: ' ' :: pyStrip (getTextN li))
      else none)) ++ [[]]

/-- The line appended per hyperlink with non-empty text and target. -/
def mdLinkLines (n : HNode) : List Str :=
  if pyStrip (getTextN n) ≠ [] ∧ getAttr (nodeAttrs n) "href".toList [] ≠ [] then
    ['[' :: (pyStrip (getTextN n) ++ ']' :: '(' ::
      (getAttr (nodeAttrs n) "href".toList [] ++ [')']))]
  else []

/-- `html_to_markdown(soup)`: headings pass, then paragraphs/lists pass,
then links pass over the main content region, joined with newlines. -/
def htmlToMarkdown (soup : HForest) : Str :=
  let mainContent :=
    match (findAllF ["main".toList] soup).head? with
    | some m => some m
    | none => (findAllF ["body".toList] soup).head?
  match mainContent with
  | none => []
  | some m =>
    joinLines
      (((findAllF headingNames (nodeChildren m)).map mdHeadingLines).flatten ++
        ((findAllF ["p".toList, "ul".toList, "ol".toList]
          (nodeChildren m)).map mdParaListLines).flatten ++
        ((findAllF ["a".toList] (nodeChildren m)).map mdLinkLines).flatten)

/-- The scenario document: a `main` region with one `h2` and one `p`. -/
def sampleSoup : HForest :=
  .cons (.elem "html".toList []
    (.cons (.elem "main".toList []
      (.cons (.elem "h2".toList [] (.cons (.text "About Us".toList) .nil))
        (.cons (.elem "p".toList []
          (.cons (.text "We build things.".toList) .nil)) .nil))) .nil)) .nil

example : htmlToMarkdown sampleSoup = "## About Us\n\nWe build things.\n".toList := by
  decide

/-- C8 counterexample: the scenario document normalizes to a string with a
single trailing newline, not the claimed two (`'\n'.join` puts no separator
after the final empty line). -/
theorem htmlToMarkdown_two_newlines_cex :
    htmlToMarkdown sampleSoup ≠ "## About Us\n\nWe build things.\n\n".toList ∧
    htmlToMarkdown sampleSoup = "## About Us\n\nWe build things.\n".toList := by
  constructor <;> decide

/-- C8 (amended): for every document whose main content region contains
exactly one `h2` element with text `About Us` and one paragraph with text
`We build things.` and no other headings, paragraphs, lists or links,
`html_to_markdown` returns `"## About Us\n\nWe build things.\n"` — heading
line, blank line, paragraph line, one trailing newline. -/
theorem htmlToMarkdown_single_h2_p (soup : HForest) (m : HNode)
    (hmain : (findAllF ["main".toList] soup).head? = some m)
    (hh : ∃ attrs cs, findAllF headingNames (nodeChildren m) =
      [HNode.elem "h2".toList attrs cs] ∧
      pyStrip (getTextF cs) = "About Us".toList)
    (hp : ∃ attrs2 cs2, findAllF ["p".toList, "ul".toList, "ol".toList]
        (nodeChildren m) = [HNode.elem "p".toList attrs2 cs2] ∧
      pyStrip (getTextF cs2) = "We build things.".toList)
    (ha : findAllF ["a".toList] (nodeChildren m) = []) :
    htmlToMarkdown soup = "## About Us\n\nWe build things.\n".toList := by
  obtain ⟨attrs, cs, hh1, hh2⟩ := hh
  obtain ⟨attrs2, cs2, hp1, hp2⟩ := hp
  unfold htmlToMarkdown
  rw [hmain]
  simp only [hh1, hp1, ha, List.map_cons, List.map_nil, List.flatten_cons,
    List.flatten_nil, List.append_nil]
  unfold mdHeadingLines mdParaListLines
  simp only [nodeTag, getTextN]
  rw [hh2, hp2]
  simp only [if_true]
  rw [if_pos (show ("We build things.".toList : Str) ≠ [] by decide)]
  decide

/-- Witness for C8 on the scenario document. -/
theorem htmlToMarkdown_single_h2_p_witness :
    htmlToMarkdown sampleSoup = "## About Us\n\nWe build things.\n".toList :=
  htmlToMarkdown_single_h2_p sampleSoup
    (HNode.elem "main".toList []
      (.cons (.elem "h2".toList [] (.cons (.text "About Us".toList) .nil))
        (.cons (.elem "p".toList []
          (.cons (.text "We build things.".toList) .nil)) .nil)))
    (by decide)
    ⟨[], .cons (.text "About Us".toList) .nil, by decide, by decide⟩
    ⟨[], .cons (.text "We build things.".toList) .nil, by decide, by decide⟩
    (by decide)
